import Mathlib

/-!
# SubLingo SRT codec and playback synchronizer: a verification development

Shallow embedding of the SRT subtitle handling core of the SubLingo
application (`src/lib/utils.ts` and the `useSubtitles` hook), together
with proofs of its specified properties.

JavaScript numbers are modelled as `Option ℚ`: `some q` is an ordinary
finite numeric value and `none` is `NaN` (the only non-finite value these
functions can produce; `parseInt` on a string with no leading digits
yields `NaN`, and `NaN` propagates through arithmetic and makes every
comparison false).  Strings are modelled as `String` / `List Char`.
-/

/-- The ASCII whitespace characters matched by the JavaScript `\s` class
and by `String.prototype.trim` (the non-ASCII Unicode space characters
also in `\s` never occur in the inputs considered here). -/
def isWS (c : Char) : Bool :=
  c = ' ' || c = '\t' || c = '\n' || c = '\r' || c = '\x0b' || c = '\x0c'

/-- JavaScript `String.prototype.trim` on a character list: drop leading
and trailing whitespace. -/
def trimL (l : List Char) : List Char :=
  (((l.dropWhile isWS).reverse.dropWhile isWS)).reverse

/-- JavaScript `str.split(sep)` for a single-character separator `sep`
(no limit argument, separator nonempty): `""` yields `[""]`, adjacent
separators yield empty fields, a trailing separator yields a trailing
empty field. -/
def splitOnC (sep : Char) : List Char → List (List Char)
  | [] => [[]]
  | c :: cs =>
    let r := splitOnC sep cs
    if c = sep then [] :: r else (c :: r.headI) :: r.tail

/-- JavaScript `arr.join(sep)` for a single-character separator. -/
def joinSep (sep : Char) : List (List Char) → List Char
  | [] => []
  | [x] => x
  | x :: xs => x ++ sep :: joinSep sep xs

/-- Decimal value of a digit list (the value `parseInt` computes once the
digit prefix has been isolated). -/
def digitsToNat (ds : List Char) : Nat :=
  ds.foldl (fun a c => 10 * a + (c.toNat - 48)) 0

/-- The leading decimal-digit prefix of a string, as a number; `none`
when there is no leading digit (JavaScript `parseInt` returns `NaN`). -/
def digitsPrefixVal (s : List Char) : Option Nat :=
  let ds := s.takeWhile Char.isDigit
  if ds = [] then none else some (digitsToNat ds)

/-- JavaScript `parseInt(s, 10)`: skip leading whitespace, read an
optional sign and then the longest decimal-digit prefix; `NaN` (here
`none`) when no digits are present. -/
def jsParseInt (s : List Char) : Option Int :=
  let s1 := s.dropWhile isWS
  match s1 with
  | '-' :: rest => (digitsPrefixVal rest).map (fun n => -(n : Int))
  | '+' :: rest => (digitsPrefixVal rest).map (fun n => (n : Int))
  | _ => (digitsPrefixVal s1).map (fun n => (n : Int))

/-- `parseSRTTime` from `src/lib/utils.ts`, on a character list.
Returns the number of seconds as `some q`, or `none` for `NaN`
(`parseInt` of a field with no digits):

    if (!timeString) return 0;
    const parts = timeString.split(':');
    if (parts.length < 3) return 0;
    const secondsParts = parts[2].split(',');
    const hours = parseInt(parts[0], 10);
    const minutes = parseInt(parts[1], 10);
    const seconds = parseInt(secondsParts[0], 10);
    const milliseconds = parseInt(secondsParts[1] || '0', 10);
    return hours * 3600 + minutes * 60 + seconds + milliseconds / 1000;
-/
def parseSRTTimeL (timeString : List Char) : Option ℚ :=
  if timeString = [] then some 0
  else
    let parts := splitOnC ':' timeString
    if parts.length < 3 then some 0
    else
      let secondsParts := splitOnC ',' (parts.getD 2 [])
      let msStr := if secondsParts.getD 1 [] = [] then ['0'] else secondsParts.getD 1 []
      match jsParseInt (parts.getD 0 []), jsParseInt (parts.getD 1 []),
            jsParseInt (secondsParts.getD 0 []), jsParseInt msStr with
      | some h, some m, some s, some ms =>
          some ((h : ℚ) * 3600 + (m : ℚ) * 60 + (s : ℚ) + (ms : ℚ) / 1000)
      | _, _, _, _ => none

/-- `parseSRTTime` on a `String`. -/
def parseSRTTime (timeString : String) : Option ℚ :=
  parseSRTTimeL timeString.data

/-- The `SubtitleSegment` interface (`src/types.ts`): start and end
timestamps in SRT text form, the source-language transcription, and the
displayed text. -/
structure SubtitleSegment where
  startTime : String
  endTime : String
  originalText : String
  text : String
deriving Repr, DecidableEq

/-- `generateSRTContent` from `src/lib/utils.ts`:

    subtitles.map((sub, index) =>
      `${index + 1}\n${sub.startTime} --> ${sub.endTime}\n${sub.text}\n\n`
    ).join('')
-/
def generateSRTContent (subtitles : List SubtitleSegment) : String :=
  String.join (subtitles.mapIdx (fun index sub =>
    Nat.repr (index + 1) ++ "\n" ++ sub.startTime ++ " --> " ++ sub.endTime
      ++ "\n" ++ sub.text ++ "\n\n"))

/-!
## The block splitter

`parseSRTFile` splits the trimmed input with `split(/\n\s*\n/)`.
A separator match is a newline, a greedy run of whitespace, and a final
newline; greediness means the match extends to the last newline of the
maximal whitespace run that follows the first newline.  `sepTail` decides,
for the text following a just-seen newline, whether such a match completes
there, and if so returns the text after the consumed separator.
-/

/-- Remainder after the greedy `\s*\n` part of the separator `/\n\s*\n/`,
given the characters that follow the separator's first newline; `none`
when the regex cannot complete a match here (no newline inside the
following whitespace run). -/
def sepTail (cs : List Char) : Option (List Char) :=
  let w := cs.takeWhile isWS
  if '\n' ∈ w then
    some ((w.reverse.takeWhile (fun c => c ≠ '\n')).reverse ++ cs.dropWhile isWS)
  else none

/-- One pass of `String.prototype.split(/\n\s*\n/)`: `acc` is the reversed
current field, `fuel` bounds the number of steps (`fuel ≥` remaining
length means exhaustion is unreachable). -/
def splitReAux : Nat → List Char → List Char → List (List Char)
  | _, acc, [] => [acc.reverse]
  | 0, acc, cs => [acc.reverse ++ cs]
  | fuel + 1, acc, c :: cs =>
    if c = '\n' then
      match sepTail cs with
      | some rest => acc.reverse :: splitReAux fuel [] rest
      | none => splitReAux fuel (c :: acc) cs
    else
      splitReAux fuel (c :: acc) cs

/-- `srtContent.trim().split(/\n\s*\n/)`: the block list of
`parseSRTFile`. -/
def blocksOf (srtContent : List Char) : List (List Char) :=
  splitReAux (trimL srtContent).length [] (trimL srtContent)

/-!
## The timing-line regex

`/(\d{2}:\d{2}:\d{2},\d{3})\s*-->\s*(\d{2}:\d{2}:\d{2},\d{3})/` applied
with `String.prototype.match`: leftmost search, two captured timestamps.
-/

/-- Match `\d{2}:\d{2}:\d{2},\d{3}` at the current position, returning
the 12 matched characters and the remainder. -/
def matchTsAt (cs : List Char) : Option (List Char × List Char) :=
  match cs with
  | a :: b :: c1 :: c :: d :: c2 :: e :: f :: c3 :: g :: h :: i :: rest =>
    if a.isDigit ∧ b.isDigit ∧ c1 = ':' ∧ c.isDigit ∧ d.isDigit ∧ c2 = ':'
        ∧ e.isDigit ∧ f.isDigit ∧ c3 = ',' ∧ g.isDigit ∧ h.isDigit ∧ i.isDigit then
      some ([a, b, c1, c, d, c2, e, f, c3, g, h, i], rest)
    else none
  | _ => none

/-- Match the whole timing pattern at the current position, returning the
two captured timestamp strings.  `\s*` before and after `-->` is greedy
and deterministic (`-` is not whitespace). -/
def matchTimingAt (cs : List Char) : Option (List Char × List Char) :=
  match matchTsAt cs with
  | none => none
  | some (s, r1) =>
    match r1.dropWhile isWS with
    | '-' :: '-' :: '>' :: r3 =>
      match matchTsAt (r3.dropWhile isWS) with
      | some (e, _) => some (s, e)
      | none => none
    | _ => none

/-- Leftmost search of the timing pattern (`String.prototype.match`
without the global flag). -/
def searchTiming : List Char → Option (List Char × List Char)
  | [] => none
  | c :: cs =>
    match matchTimingAt (c :: cs) with
    | some r => some r
    | none => searchTiming cs

/-- The body of the `parseSRTFile` loop for one block: `continue`
(here `none`) on fewer than 3 lines or a failed timing match, otherwise
the pushed segment.

    const lines = block.trim().split('\n');
    if (lines.length < 3) continue;
    const timeLine = lines[1];
    const timeMatch = timeLine.match(/(\d{2}:...)\s*-->\s*(\d{2}:...)/);
    if (!timeMatch) continue;
    const text = lines.slice(2).join('\n').trim();
    subtitles.push({ startTime, endTime, originalText: text, text });
-/
def parseBlock (block : List Char) : Option SubtitleSegment :=
  let lines := splitOnC '\n' (trimL block)
  if lines.length < 3 then none
  else
    match searchTiming (lines.getD 1 []) with
    | none => none
    | some (s, e) =>
      let text := trimL (joinSep '\n' (lines.drop 2))
      some { startTime := String.mk s, endTime := String.mk e,
             originalText := String.mk text, text := String.mk text }

/-- `parseSRTFile` from `src/lib/utils.ts`: split the trimmed content
into blocks, skip invalid blocks, collect the segments in order. -/
def parseSRTFile (srtContent : String) : List SubtitleSegment :=
  (blocksOf srtContent.data).filterMap parseBlock

/-!
## The playback synchronizer (`useSubtitles`, `src/hooks/useSubtitles.ts`)
-/

/-- JavaScript `<=` on numbers: false whenever either side is `NaN`. -/
def jsLe (a b : Option ℚ) : Bool :=
  match a, b with
  | some x, some y => x ≤ y
  | _, _ => false

/-- The predicate of `subtitles.find` in `handleTimeUpdate`:

    const start = parseSRTTime(sub.startTime);
    const end = parseSRTTime(sub.endTime);
    return currentTime >= start && currentTime <= end;
-/
def segMatches (currentTime : ℚ) (sub : SubtitleSegment) : Bool :=
  jsLe (parseSRTTime sub.startTime) (some currentTime) &&
    jsLe (some currentTime) (parseSRTTime sub.endTime)

/-- `subtitles.find(...)`: the first segment whose time range contains
the current playback time. -/
def findActive (subtitles : List SubtitleSegment) (currentTime : ℚ) :
    Option SubtitleSegment :=
  subtitles.find? (segMatches currentTime)

/-- `setCurrentSubtitle(activeSub ? activeSub.text : '')`: the displayed
text for a given track and playback time. -/
def currentSubtitleAt (subtitles : List SubtitleSegment) (currentTime : ℚ) : String :=
  match findActive subtitles currentTime with
  | some s => s.text
  | none => ""

/-- The displayed text including the absent-track case: with no track
(`subtitles` null) the handler is never installed and the displayed text
stays `''`. -/
def displayedSubtitle (subtitles : Option (List SubtitleSegment)) (currentTime : ℚ) :
    String :=
  match subtitles with
  | none => ""
  | some l => currentSubtitleAt l currentTime

/-- The clock value `seekTo` assigns:
`videoRef.current.currentTime = parseSRTTime(timestamp)`. -/
def seekTarget (timestamp : String) : Option ℚ :=
  parseSRTTime timestamp

/-- A line of a block: no embedded newline, and at least one
non-whitespace character (so a blank-line run can never start inside
it). -/
def GoodLine (l : List Char) : Prop :=
  '\n' ∉ l ∧ ∃ c ∈ l, isWS c = false

instance (l : List Char) : Decidable (GoodLine l) := by
  unfold GoodLine
  infer_instance

/-- The shape `\d{2}:\d{2}:\d{2},\d{3}` of a timestamp string. -/
def TsShapeP (cs : List Char) : Prop :=
  ∃ a b c d e f g h i : Char,
    cs = [a, b, ':', c, d, ':', e, f, ',', g, h, i] ∧
    a.isDigit = true ∧ b.isDigit = true ∧ c.isDigit = true ∧ d.isDigit = true ∧
    e.isDigit = true ∧ f.isDigit = true ∧ g.isDigit = true ∧ h.isDigit = true ∧
    i.isDigit = true

/-!
## Claim C3: the exact serialization format
-/

/-- One serialized block, modelled from the spec's words (§4.2
Serialize): index line, timing line with exactly one space on each side
of the arrow, the text, then a blank line. -/
def srtBlockSpec (n : Nat) (s : SubtitleSegment) : String :=
  Nat.repr n ++ "\n" ++ s.startTime ++ " --> " ++ s.endTime ++ "\n" ++ s.text ++ "\n\n"

/-- Serialization modelled from the spec's words: blocks concatenated in
track order with 1-based sequential indices and no extra separator;
`originalText` is never written. -/
def srtSerializeSpec : Nat → List SubtitleSegment → String
  | _, [] => ""
  | n, s :: rest => srtBlockSpec n s ++ srtSerializeSpec (n + 1) rest

/-!
## Claim C1: active-segment lookup
-/

/-- The claim-side activity predicate: the playback time lies between
the parsed start and end timestamps (both inclusive, both parsing to
actual numbers). -/
def SegActive (t : ℚ) (s : SubtitleSegment) : Prop :=
  ∃ a b, parseSRTTime s.startTime = some a ∧ parseSRTTime s.endTime = some b ∧
    a ≤ t ∧ t ≤ b

/-- The example track of the claim:
`[{00:00:01,000-00:00:03,000,"A"}, {00:00:04,000-00:00:06,000,"B"}]`. -/
def exTrack : List SubtitleSegment :=
  [⟨"00:00:01,000", "00:00:03,000", "A", "A"⟩,
   ⟨"00:00:04,000", "00:00:06,000", "B", "B"⟩]

/-!
## Claim C7: blank-line runs between blocks, trailing blank lines
-/

/-- `parseSRTFile` on a character list. -/
def parseSRTFileL (srtContent : List Char) : List SubtitleSegment :=
  (blocksOf srtContent).filterMap parseBlock

/-- A well-formed SRT block for the purposes of document assembly: a
nonempty sequence of good lines (no blank line can start inside it), no
leading or trailing whitespace, and accepted by the per-block parser. -/
def WFBlock (B : List Char) : Prop :=
  (∃ ls : List (List Char), B = joinSep '\n' ls ∧ ls ≠ [] ∧ ∀ l ∈ ls, GoodLine l) ∧
  B ≠ [] ∧
  (∀ c, B.head? = some c → isWS c = false) ∧
  (∀ c, B.getLast? = some c → isWS c = false) ∧
  (parseBlock B).isSome

/-!
## Claim C2: round-trip
-/

/-- Boolean checker for the timestamp shape `\d{2}:\d{2}:\d{2},\d{3}`. -/
def tsShapeB (cs : List Char) : Bool :=
  match cs with
  | [a, b, c1, c, d, c2, e, f, c3, g, h, i] =>
    a.isDigit && b.isDigit && (c1 = ':') && c.isDigit && d.isDigit && (c2 = ':') &&
    e.isDigit && f.isDigit && (c3 = ',') && g.isDigit && h.isDigit && i.isDigit
  | _ => false

/-- The counterexample track for C2: a single segment whose (nonempty)
text contains a blank line. -/
def cexTrack : List SubtitleSegment :=
  [⟨"00:00:01,000", "00:00:03,000", "a\n\nb", "a\n\nb"⟩]

/-- The timing line `generateSRTContent` emits for a segment. -/
def timingLine (s : SubtitleSegment) : List Char :=
  s.startTime.data ++ (' ' :: '-' :: '-' :: '>' :: ' ' :: s.endTime.data)

/-- One serialized block without its trailing blank line, numbered `n`. -/
def blockCore (n : Nat) (s : SubtitleSegment) : List Char :=
  (Nat.repr n).data ++ '\n' :: (timingLine s ++ '\n' :: s.text.data)

/-- The serialized track as characters: blocks numbered from `n+1`, each
followed by a blank line. -/
def genBlocks : Nat → List SubtitleSegment → List Char
  | _, [] => []
  | n, s :: rest => blockCore (n + 1) s ++ '\n' :: '\n' :: genBlocks (n + 1) rest

/-- The serialized track with the final blank line removed. -/
def interBlocks : Nat → List SubtitleSegment → List Char
  | _, [] => []
  | n, [s] => blockCore (n + 1) s
  | n, s :: rest => blockCore (n + 1) s ++ '\n' :: '\n' :: interBlocks (n + 1) rest

/-- The per-segment block strings, numbered from `n+1`. -/
def blockList : Nat → List SubtitleSegment → List (List Char)
  | _, [] => []
  | n, s :: rest => blockCore (n + 1) s :: blockList (n + 1) rest

/-- The lines of a serialized block. -/
def blockLines (n : Nat) (s : SubtitleSegment) : List (List Char) :=
  (Nat.repr n).data :: timingLine s :: splitOnC '\n' s.text.data

/-- The hypotheses of the amended round-trip claim, per segment: nonempty
text equal to `originalText`, exact-shape timestamps, text free of
leading/trailing whitespace and of blank lines. -/
def RoundTripSafe (s : SubtitleSegment) : Prop :=
  s.text ≠ "" ∧ s.originalText = s.text ∧ TsShapeP s.startTime.data ∧
  TsShapeP s.endTime.data ∧ trimL s.text.data = s.text.data ∧
  ∀ l ∈ splitOnC '\n' s.text.data, ∃ c ∈ l, isWS c = false

theorem length_takeWhile_lt_of_mem {l : List Char} (h : '\n' ∈ l) :
    (l.takeWhile (fun c => c ≠ '\n')).length < l.length := by
  induction l with
  | nil => cases h
  | cons c cs ih =>
    by_cases hc : c = '\n'
    · subst hc; simp [List.takeWhile_cons]
    · rcases List.mem_cons.mp h with h1 | h2
      · exact absurd h1.symm hc
      · have hp : (fun c => decide (c ≠ '\n')) c = true := by simp [hc]
        simp only [List.takeWhile_cons, hp, if_true, List.length_cons]
        exact Nat.succ_lt_succ (ih h2)

theorem sepTail_length {cs rest : List Char} (h : sepTail cs = some rest) :
    rest.length < cs.length := by
  simp only [sepTail] at h
  split at h
  · rename_i hmem
    cases h
    have h1 := length_takeWhile_lt_of_mem (List.mem_reverse.mpr hmem)
    have hlen : (cs.takeWhile isWS).length + (cs.dropWhile isWS).length = cs.length := by
      rw [← List.length_append, List.takeWhile_append_dropWhile]
    simp only [List.length_reverse] at h1
    simp only [List.length_append, List.length_reverse]
    omega
  · cases h

/-!
## Supporting lemmas: splitting and joining on a single character
-/

theorem splitOnC_ne_nil (sep : Char) (l : List Char) : splitOnC sep l ≠ [] := by
  cases l with
  | nil => simp [splitOnC]
  | cons c cs =>
    simp only [splitOnC]
    split <;> simp

theorem splitOnC_not_mem {sep : Char} {l : List Char} (h : sep ∉ l) :
    splitOnC sep l = [l] := by
  induction l with
  | nil => rfl
  | cons c cs ih =>
    have hc : c ≠ sep := fun hne => h (hne ▸ List.mem_cons_self c cs)
    have hcs : sep ∉ cs := fun hm => h (List.mem_cons_of_mem c hm)
    simp only [splitOnC, if_neg hc, ih hcs]
    rfl

theorem splitOnC_append {sep : Char} {a : List Char} (b : List Char) (h : sep ∉ a) :
    splitOnC sep (a ++ sep :: b) = a :: splitOnC sep b := by
  induction a with
  | nil => simp [splitOnC]
  | cons c cs ih =>
    have hc : c ≠ sep := fun hne => h (hne ▸ List.mem_cons_self c cs)
    have hcs : sep ∉ cs := fun hm => h (List.mem_cons_of_mem c hm)
    show splitOnC sep (c :: (cs ++ sep :: b)) = (c :: cs) :: splitOnC sep b
    simp only [splitOnC]
    rw [if_neg hc, ih hcs]
    rfl

theorem joinSep_splitOnC (sep : Char) (l : List Char) :
    joinSep sep (splitOnC sep l) = l := by
  induction l with
  | nil => rfl
  | cons c cs ih =>
    cases hr : splitOnC sep cs with
    | nil => exact absurd hr (splitOnC_ne_nil sep cs)
    | cons f rest =>
      rw [hr] at ih
      by_cases hc : c = sep
      · simp only [splitOnC, if_pos hc, hr]
        cases rest with
        | nil =>
          simp only [joinSep] at ih ⊢
          rw [ih, hc]
          rfl
        | cons g rest2 =>
          simp only [joinSep] at ih ⊢
          rw [ih, hc]
          rfl
      · simp only [splitOnC, if_neg hc, hr]
        cases rest with
        | nil =>
          simp only [List.headI, List.tail, joinSep] at ih ⊢
          rw [ih]
        | cons g rest2 =>
          simp only [List.headI, List.tail, joinSep] at ih ⊢
          rw [← ih]
          rfl

theorem not_mem_of_mem_splitOnC {sep : Char} {x l : List Char}
    (h : l ∈ splitOnC sep x) : sep ∉ l := by
  induction x generalizing l with
  | nil =>
    simp only [splitOnC, List.mem_singleton] at h
    subst h; simp
  | cons c cs ih =>
    simp only [splitOnC] at h
    by_cases hc : c = sep
    · rw [if_pos hc] at h
      rcases List.mem_cons.mp h with h1 | h2
      · subst h1; simp
      · exact ih h2
    · rw [if_neg hc] at h
      rcases List.mem_cons.mp h with h1 | h2
      · subst h1
        intro hm
        rcases List.mem_cons.mp hm with h3 | h4
        · exact hc h3.symm
        · have hne := splitOnC_ne_nil sep cs
          cases hr : splitOnC sep cs with
          | nil => exact absurd hr hne
          | cons f rest =>
            have : f ∈ splitOnC sep cs := by rw [hr]; exact List.mem_cons_self f rest
            have := ih this
            rw [hr] at h4
            exact this (by simpa using h4)
      · have hne := splitOnC_ne_nil sep cs
        cases hr : splitOnC sep cs with
        | nil => exact absurd hr hne
        | cons f rest =>
          rw [hr] at h2
          exact ih (by rw [hr]; exact List.mem_cons_of_mem f (by simpa using h2))

theorem length_splitOnC_pos (sep : Char) (l : List Char) :
    0 < (splitOnC sep l).length :=
  List.length_pos.mpr (splitOnC_ne_nil sep l)

/-!
## Supporting lemmas: takeWhile, dropWhile and trim
-/

theorem dropWhile_append_of_all {p : Char → Bool} {a : List Char} (b : List Char)
    (h : ∀ c ∈ a, p c) : (a ++ b).dropWhile p = b.dropWhile p := by
  induction a with
  | nil => rfl
  | cons c cs ih =>
    have hc : p c := h c (List.mem_cons_self c cs)
    simp only [List.cons_append, List.dropWhile_cons, hc, if_true]
    exact ih (fun x hx => h x (List.mem_cons_of_mem c hx))

theorem dropWhile_append_of_exists {p : Char → Bool} {a : List Char} (b : List Char)
    (h : ∃ c ∈ a, ¬ p c) : (a ++ b).dropWhile p = a.dropWhile p ++ b := by
  induction a with
  | nil => obtain ⟨c, hc, _⟩ := h; cases hc
  | cons c cs ih =>
    by_cases hc : p c
    · simp only [List.cons_append, List.dropWhile_cons, hc, if_true]
      apply ih
      obtain ⟨d, hd, hpd⟩ := h
      rcases List.mem_cons.mp hd with h1 | h2
      · exact absurd (h1 ▸ hc) hpd
      · exact ⟨d, h2, hpd⟩
    · rw [List.cons_append, List.dropWhile_cons, if_neg hc, List.dropWhile_cons, if_neg hc,
        List.cons_append]

theorem takeWhile_append_of_exists {p : Char → Bool} {a : List Char} (b : List Char)
    (h : ∃ c ∈ a, ¬ p c) : (a ++ b).takeWhile p = a.takeWhile p := by
  induction a with
  | nil => obtain ⟨c, hc, _⟩ := h; cases hc
  | cons c cs ih =>
    by_cases hc : p c
    · simp only [List.cons_append, List.takeWhile_cons, hc, if_true]
      congr 1
      apply ih
      obtain ⟨d, hd, hpd⟩ := h
      rcases List.mem_cons.mp hd with h1 | h2
      · exact absurd (h1 ▸ hc) hpd
      · exact ⟨d, h2, hpd⟩
    · rw [List.cons_append, List.takeWhile_cons, if_neg hc, List.takeWhile_cons, if_neg hc]

theorem head_dropWhile_not {p : Char → Bool} {l : List Char} {c : Char} {r : List Char}
    (h : l.dropWhile p = c :: r) : ¬ p c := by
  induction l with
  | nil => cases h
  | cons d ds ih =>
    simp only [List.dropWhile_cons] at h
    by_cases hd : p d
    · rw [if_pos hd] at h; exact ih h
    · rw [if_neg hd] at h
      cases h
      exact hd

theorem dropWhile_idem (p : Char → Bool) (l : List Char) :
    (l.dropWhile p).dropWhile p = l.dropWhile p := by
  cases hr : l.dropWhile p with
  | nil => rfl
  | cons c r =>
    have hpc := head_dropWhile_not hr
    rw [List.dropWhile_cons, if_neg hpc]

theorem dropWhile_eq_nil_of_all {p : Char → Bool} {l : List Char}
    (h : ∀ c ∈ l, p c) : l.dropWhile p = [] := by
  induction l with
  | nil => rfl
  | cons c cs ih =>
    rw [List.dropWhile_cons, if_pos (h c (List.mem_cons_self c cs))]
    exact ih (fun x hx => h x (List.mem_cons_of_mem c hx))

theorem dropWhile_decompose (p : Char → Bool) (l : List Char) :
    ∃ a, (∀ c ∈ a, p c) ∧ l = a ++ l.dropWhile p := by
  induction l with
  | nil => exact ⟨[], by simp, rfl⟩
  | cons c cs ih =>
    by_cases hc : p c
    · obtain ⟨a, ha, heq⟩ := ih
      refine ⟨c :: a, ?_, ?_⟩
      · intro x hx
        rcases List.mem_cons.mp hx with h1 | h2
        · exact h1 ▸ hc
        · exact ha x h2
      · rw [List.dropWhile_cons, if_pos hc, List.cons_append, ← heq]
    · exact ⟨[], by simp, by rw [List.dropWhile_cons, if_neg hc]; rfl⟩

theorem trimL_decompose (l : List Char) :
    ∃ a b, (∀ c ∈ a, isWS c) ∧ (∀ c ∈ b, isWS c) ∧ l = a ++ trimL l ++ b := by
  obtain ⟨a, ha, heq⟩ := dropWhile_decompose isWS l
  obtain ⟨b, hb, heqb⟩ := dropWhile_decompose isWS (l.dropWhile isWS).reverse
  refine ⟨a, b.reverse, ha, fun c hc => hb c (List.mem_reverse.mp hc), ?_⟩
  have hy : l.dropWhile isWS = trimL l ++ b.reverse := by
    have h3 : (l.dropWhile isWS).reverse.reverse =
        (b ++ (l.dropWhile isWS).reverse.dropWhile isWS).reverse := by rw [← heqb]
    rw [List.reverse_reverse, List.reverse_append] at h3
    exact h3
  rw [List.append_assoc, ← hy, ← heq]

theorem trimL_head_not {l : List Char} {c : Char} (h : (trimL l).head? = some c) :
    isWS c = false := by
  obtain ⟨b, hb, heqb⟩ := dropWhile_decompose isWS (l.dropWhile isWS).reverse
  have hz : trimL l = ((l.dropWhile isWS).reverse.dropWhile isWS).reverse := rfl
  have hy : l.dropWhile isWS = trimL l ++ b.reverse := by
    conv_lhs => rw [← List.reverse_reverse (l.dropWhile isWS), heqb]
    rw [List.reverse_append, hz]
  cases hz2 : trimL l with
  | nil => rw [hz2] at h; cases h
  | cons d r =>
    rw [hz2] at h
    cases h
    rw [hz2, List.cons_append] at hy
    have := head_dropWhile_not hy
    simpa using this

theorem trimL_getLast_not {l : List Char} {c : Char}
    (h : (trimL l).getLast? = some c) : isWS c = false := by
  have hz : (trimL l).reverse = (l.dropWhile isWS).reverse.dropWhile isWS := by
    unfold trimL
    rw [List.reverse_reverse]
  have hrev : (trimL l).reverse.head? = some c := by
    rw [List.head?_reverse]
    exact h
  rw [hz] at hrev
  cases hd : (l.dropWhile isWS).reverse.dropWhile isWS with
  | nil => rw [hd] at hrev; cases hrev
  | cons d r =>
    rw [hd] at hrev
    cases hrev
    have := head_dropWhile_not hd
    simpa using this

theorem trimL_eq_self {l : List Char}
    (h1 : ∀ c, l.head? = some c → isWS c = false)
    (h2 : ∀ c, l.getLast? = some c → isWS c = false) : trimL l = l := by
  unfold trimL
  have hd : l.dropWhile isWS = l := by
    cases l with
    | nil => rfl
    | cons c cs =>
      rw [List.dropWhile_cons, if_neg]
      simp [h1 c rfl]
  rw [hd]
  have hr : l.reverse.dropWhile isWS = l.reverse := by
    cases hrev : l.reverse with
    | nil => rfl
    | cons c r =>
      rw [List.dropWhile_cons, if_neg]
      have hlast : l.getLast? = some c := by
        rw [← List.head?_reverse, hrev]
        rfl
      simp [h2 c hlast]
  rw [hr, List.reverse_reverse]

theorem trimL_idem (l : List Char) : trimL (trimL l) = trimL l :=
  trimL_eq_self (fun _ h => trimL_head_not h) (fun _ h => trimL_getLast_not h)

theorem takeWhile_append_of_all {p : Char → Bool} {a : List Char} (b : List Char)
    (h : ∀ c ∈ a, p c) : (a ++ b).takeWhile p = a ++ b.takeWhile p := by
  induction a with
  | nil => rfl
  | cons c cs ih =>
    have hc : p c := h c (List.mem_cons_self c cs)
    simp only [List.cons_append, List.takeWhile_cons, hc, if_true]
    rw [ih (fun x hx => h x (List.mem_cons_of_mem c hx))]

theorem mem_of_mem_takeWhile {p : Char → Bool} {l : List Char} {x : Char}
    (h : x ∈ l.takeWhile p) : x ∈ l := by
  induction l with
  | nil => exact absurd h (List.not_mem_nil x)
  | cons c cs ih =>
    rw [List.takeWhile_cons] at h
    by_cases hc : p c
    · rw [if_pos hc] at h
      rcases List.mem_cons.mp h with h1 | h2
      · exact h1 ▸ List.mem_cons_self c cs
      · exact List.mem_cons_of_mem c (ih h2)
    · rw [if_neg hc] at h
      exact absurd h (List.not_mem_nil x)

theorem trimL_append_ws {ws : List Char} (l : List Char) (h : ∀ c ∈ ws, isWS c) :
    trimL (l ++ ws) = trimL l := by
  by_cases hall : ∀ c ∈ l, isWS c
  · have hz1 : (l ++ ws).dropWhile isWS = [] :=
      dropWhile_eq_nil_of_all (fun c hc => by
        rcases List.mem_append.mp hc with h1 | h2
        · exact hall c h1
        · exact h c h2)
    have hz2 : l.dropWhile isWS = [] := dropWhile_eq_nil_of_all hall
    unfold trimL
    rw [hz1, hz2]
  · push_neg at hall
    obtain ⟨c, hc, hcw⟩ := hall
    unfold trimL
    rw [dropWhile_append_of_exists ws ⟨c, hc, by simp [hcw]⟩, List.reverse_append,
      dropWhile_append_of_all (l.dropWhile isWS).reverse
        (fun x hx => h x (List.mem_reverse.mp hx))]

/-!
## Supporting lemmas: the regex block splitter
-/

/-- Fuel irrelevance: any fuel at least the input length gives the same
split. -/
theorem splitReAux_congr (f : Nat) : ∀ (g : Nat) (acc cs : List Char),
    cs.length ≤ f → cs.length ≤ g →
    splitReAux f acc cs = splitReAux g acc cs := by
  induction f using Nat.strong_induction_on with
  | _ f ih =>
    intro g acc cs hf hg
    cases cs with
    | nil => cases f <;> cases g <;> rfl
    | cons c cs =>
      simp only [List.length_cons] at hf hg
      cases f with
      | zero => omega
      | succ f2 =>
        cases g with
        | zero => omega
        | succ g2 =>
          simp only [splitReAux]
          by_cases hc : c = '\n'
          · rw [if_pos hc, if_pos hc]
            cases hsep : sepTail cs with
            | none =>
              simp only [hsep]
              exact ih f2 (Nat.lt_succ_self f2) g2 (c :: acc) cs (by omega) (by omega)
            | some rest =>
              have hlen := sepTail_length hsep
              simp only [hsep]
              rw [ih f2 (Nat.lt_succ_self f2) g2 [] rest (by omega) (by omega)]
          · rw [if_neg hc, if_neg hc]
            exact ih f2 (Nat.lt_succ_self f2) g2 (c :: acc) cs (by omega) (by omega)

/-- Consuming a newline-free chunk just accumulates it. -/
theorem splitReAux_no_nl : ∀ (l acc rest : List Char) (fuel : Nat),
    '\n' ∉ l → (l ++ rest).length ≤ fuel →
    splitReAux fuel acc (l ++ rest) =
      splitReAux (fuel - l.length) (l.reverse ++ acc) rest := by
  intro l
  induction l with
  | nil => intro acc rest fuel h hf; simp
  | cons c cs ih =>
    intro acc rest fuel h hf
    have hc : c ≠ '\n' := fun he => h (he ▸ List.mem_cons_self c cs)
    simp only [List.cons_append, List.length_append, List.length_cons] at hf ⊢
    cases fuel with
    | zero => omega
    | succ f2 =>
      simp only [splitReAux]
      rw [if_neg hc]
      rw [ih (c :: acc) rest f2 (fun hm => h (List.mem_cons_of_mem c hm))
        (by simp only [List.length_append]; omega)]
      congr 1
      · omega
      · simp

theorem sepTail_none_of_good {l : List Char} (z : List Char) (hg : GoodLine l) :
    sepTail (l ++ z) = none := by
  obtain ⟨hnl, c, hc, hcw⟩ := hg
  simp only [sepTail]
  rw [takeWhile_append_of_exists z ⟨c, hc, by simp [hcw]⟩]
  rw [if_neg (fun hmem => hnl (mem_of_mem_takeWhile hmem))]

/-- The splitter consumes a block made of good lines without emitting a
field boundary inside it. -/
theorem splitReAux_chunk : ∀ (ls : List (List Char)) (acc rest : List Char) (fuel : Nat),
    ls ≠ [] → (∀ l ∈ ls, GoodLine l) →
    (joinSep '\n' ls ++ rest).length ≤ fuel →
    splitReAux fuel acc (joinSep '\n' ls ++ rest) =
      splitReAux fuel ((joinSep '\n' ls).reverse ++ acc) rest := by
  intro ls
  induction ls with
  | nil => intro acc rest fuel h; exact absurd rfl h
  | cons l ls ih =>
    intro acc rest fuel _ hgood hf
    cases ls with
    | nil =>
      have hJ1 : joinSep '\n' [l] = l := rfl
      rw [hJ1] at hf ⊢
      have hnl : '\n' ∉ l := (hgood l (List.mem_cons_self _ _)).1
      rw [splitReAux_no_nl l acc rest fuel hnl hf]
      apply splitReAux_congr
      · simp only [List.length_append] at hf; omega
      · simp only [List.length_append] at hf; omega
    | cons l2 ls2 =>
      have hJ : joinSep '\n' (l :: l2 :: ls2) = l ++ '\n' :: joinSep '\n' (l2 :: ls2) := rfl
      rw [hJ] at hf ⊢
      have hnl : '\n' ∉ l := (hgood l (List.mem_cons_self _ _)).1
      have hassoc : (l ++ '\n' :: joinSep '\n' (l2 :: ls2)) ++ rest =
          l ++ ('\n' :: (joinSep '\n' (l2 :: ls2) ++ rest)) := by simp
      rw [hassoc] at hf ⊢
      rw [splitReAux_no_nl l acc ('\n' :: (joinSep '\n' (l2 :: ls2) ++ rest)) fuel hnl hf]
      simp only [List.length_append, List.length_cons] at hf
      have hge : 1 + (joinSep '\n' (l2 :: ls2) ++ rest).length ≤ fuel - l.length := by
        simp only [List.length_append]; omega
      cases hfl : fuel - l.length with
      | zero => simp only [List.length_append] at hge; omega
      | succ f2 =>
        rw [hfl] at hge
        simp only [splitReAux, if_true]
        have hsep : sepTail (joinSep '\n' (l2 :: ls2) ++ rest) = none := by
          have hJ2 : ∃ w, joinSep '\n' (l2 :: ls2) ++ rest = l2 ++ w := by
            cases ls2 with
            | nil => exact ⟨rest, rfl⟩
            | cons l3 ls3 => exact ⟨'\n' :: joinSep '\n' (l3 :: ls3) ++ rest, by simp [joinSep]⟩
          obtain ⟨w, hw⟩ := hJ2
          rw [hw]
          exact sepTail_none_of_good w (hgood l2 (List.mem_cons_of_mem l (List.mem_cons_self _ _)))
        simp only [hsep]
        rw [ih ('\n' :: (l.reverse ++ acc)) rest f2 (by simp)
          (fun x hx => hgood x (List.mem_cons_of_mem l hx))
          (by simp only [List.length_append] at hge ⊢; omega)]
        have hacc : (joinSep '\n' (l2 :: ls2)).reverse ++ '\n' :: (l.reverse ++ acc) =
            (l ++ '\n' :: joinSep '\n' (l2 :: ls2)).reverse ++ acc := by
          simp
        rw [hacc]
        apply splitReAux_congr
        · simp only [List.length_append] at hge; omega
        · omega

theorem sepTail_newlines (j : Nat) {rest : List Char} {c0 : Char}
    (hr : rest.head? = some c0) (hc : isWS c0 = false) :
    sepTail (List.replicate (j + 1) '\n' ++ rest) = some rest := by
  have hall : ∀ c ∈ List.replicate (j + 1) '\n', isWS c := by
    intro c hmem
    rw [List.eq_of_mem_replicate hmem]
    rfl
  have hrest : rest.takeWhile isWS = [] := by
    cases rest with
    | nil => rfl
    | cons d r =>
      cases hr
      rw [List.takeWhile_cons, if_neg (by simp [hc])]
  have hrestd : rest.dropWhile isWS = rest := by
    cases rest with
    | nil => rfl
    | cons d r =>
      cases hr
      rw [List.dropWhile_cons, if_neg (by simp [hc])]
  simp only [sepTail]
  rw [takeWhile_append_of_all rest hall, hrest, List.append_nil,
    dropWhile_append_of_all rest hall, hrestd]
  rw [if_pos (by simp [List.mem_replicate])]
  have h2 : (List.replicate (j + 1) '\n').reverse.takeWhile (fun c => c ≠ '\n') = [] := by
    rw [List.reverse_replicate, List.replicate_succ, List.takeWhile_cons]
    simp
  rw [h2]
  simp

/-- At a blank-line run followed by non-whitespace, the splitter emits
the accumulated field and restarts after the run. -/
theorem splitReAux_sep_step (j fuel : Nat) (acc rest : List Char) (c0 : Char)
    (hr : rest.head? = some c0) (hc : isWS c0 = false) :
    splitReAux (fuel + 1) acc ('\n' :: (List.replicate (j + 1) '\n' ++ rest)) =
      acc.reverse :: splitReAux fuel [] rest := by
  simp only [splitReAux, if_true]
  simp only [sepTail_newlines j hr hc]

/-!
## Supporting lemmas: digits, `parseInt`, timestamps
-/

theorem isDigit_not_ws {c : Char} (h : c.isDigit = true) : isWS c = false := by
  by_contra hws
  simp only [Bool.not_eq_false] at hws
  simp only [isWS, Bool.or_eq_true, decide_eq_true_eq] at hws
  rcases hws with ((((h1 | h1) | h1) | h1) | h1) | h1 <;> subst h1 <;>
    exact absurd h (by decide)

theorem isDigit_ne {c d : Char} (h : c.isDigit = true) (hd : d.isDigit = false) :
    c ≠ d :=
  fun he => by rw [he, hd] at h; cases h

theorem jsParseInt_digits {ds : List Char} (hne : ds ≠ [])
    (hd : ∀ c ∈ ds, c.isDigit = true) :
    jsParseInt ds = some ((digitsToNat ds : Nat) : Int) := by
  cases ds with
  | nil => exact absurd rfl hne
  | cons c cs =>
    have hc := hd c (List.mem_cons_self c cs)
    have hnws := isDigit_not_ws hc
    have hdrop : List.dropWhile isWS (c :: cs) = c :: cs := by
      rw [List.dropWhile_cons, if_neg (by simp [hnws])]
    have htake : List.takeWhile Char.isDigit (c :: cs) = c :: cs :=
      List.takeWhile_eq_self_iff.mpr hd
    simp only [jsParseInt, hdrop]
    split
    · rename_i rest heq
      injection heq with h1 h2
      exact absurd h1 (isDigit_ne hc (by decide))
    · rename_i rest heq
      injection heq with h1 h2
      exact absurd h1 (isDigit_ne hc (by decide))
    · simp only [digitsPrefixVal, htake]
      rw [if_neg (by simp)]
      rfl

theorem digitChar_isDigit {m : Nat} (h : m < 10) : (Nat.digitChar m).isDigit = true := by
  interval_cases m <;> decide

theorem toDigitsCore_mem : ∀ (f n : Nat) (ds : List Char) (c : Char),
    c ∈ Nat.toDigitsCore 10 f n ds → c.isDigit = true ∨ c ∈ ds := by
  intro f
  induction f with
  | zero => intro n ds c h; exact Or.inr h
  | succ f ih =>
    intro n ds c h
    simp only [Nat.toDigitsCore] at h
    split at h
    · rcases List.mem_cons.mp h with h1 | h2
      · exact Or.inl (h1 ▸ digitChar_isDigit (Nat.mod_lt _ (by norm_num)))
      · exact Or.inr h2
    · rcases ih _ _ _ h with h1 | h2
      · exact Or.inl h1
      · rcases List.mem_cons.mp h2 with h3 | h4
        · exact Or.inl (h3 ▸ digitChar_isDigit (Nat.mod_lt _ (by norm_num)))
        · exact Or.inr h4

theorem toDigitsCore_length_le : ∀ (f n : Nat) (ds : List Char),
    ds.length ≤ (Nat.toDigitsCore 10 f n ds).length := by
  intro f
  induction f with
  | zero => intro n ds; simp [Nat.toDigitsCore]
  | succ f ih =>
    intro n ds
    simp only [Nat.toDigitsCore]
    split
    · simp
    · calc ds.length ≤ (Nat.digitChar (n % 10) :: ds).length := by simp
        _ ≤ _ := ih _ _

theorem repr_data_digits (n : Nat) : ∀ c ∈ (Nat.repr n).data, c.isDigit = true := by
  intro c hc
  have hdata : (Nat.repr n).data = Nat.toDigits 10 n := rfl
  rw [hdata] at hc
  rcases toDigitsCore_mem (n + 1) n [] c hc with h1 | h2
  · exact h1
  · exact absurd h2 (List.not_mem_nil c)

theorem repr_data_ne_nil (n : Nat) : (Nat.repr n).data ≠ [] := by
  have hdata : (Nat.repr n).data = Nat.toDigits 10 n := rfl
  rw [hdata]
  unfold Nat.toDigits
  intro h
  simp only [Nat.toDigitsCore] at h
  split at h
  · cases h
  · have h1 := toDigitsCore_length_le n (n / 10) [Nat.digitChar (n % 10)]
    rw [h] at h1
    simp at h1

theorem matchTsAt_of_shape {S : List Char} (hs : TsShapeP S) (r : List Char) :
    matchTsAt (S ++ r) = some (S, r) := by
  obtain ⟨a, b, c, d, e, f, g, h, i, hEq, h1, h2, h3, h4, h5, h6, h7, h8, h9⟩ := hs
  subst hEq
  simp [matchTsAt, h1, h2, h3, h4, h5, h6, h7, h8, h9]

theorem matchTsAt_shape {cs s r : List Char} (hm : matchTsAt cs = some (s, r)) :
    TsShapeP s ∧ cs = s ++ r := by
  unfold matchTsAt at hm
  split at hm
  · rename_i a b c1 c d c2 e f c3 g h i rest
    split at hm
    · rename_i hcond
      obtain ⟨h1, h2, h3, h4, h5, h6, h7, h8, h9, h10, h11, h12⟩ := hcond
      injection hm with hm1
      injection hm1 with hs hr
      subst hs; subst hr
      subst h3; subst h6; subst h9
      exact ⟨⟨a, b, c, d, e, f, g, h, i, rfl, h1, h2, h4, h5, h7, h8, h10, h11, h12⟩, by simp⟩
    · cases hm
  · cases hm

/-!
## Supporting lemmas: `String.join`
-/

theorem foldl_append_data : ∀ (l : List String) (a : String),
    (l.foldl (fun r s => r ++ s) a).data = a.data ++ (l.map String.data).flatten := by
  intro l
  induction l with
  | nil => intro a; simp
  | cons s rest ih =>
    intro a
    simp only [List.foldl_cons, List.map_cons, List.flatten_cons]
    rw [ih (a ++ s)]
    simp

theorem join_data (l : List String) :
    (String.join l).data = (l.map String.data).flatten := by
  have h := foldl_append_data l ""
  simpa [String.join] using h

theorem join_cons (s : String) (rest : List String) :
    String.join (s :: rest) = s ++ String.join rest := by
  apply String.ext
  rw [String.data_append, join_data, join_data]
  simp

theorem srtSerialize_eq : ∀ (subs : List SubtitleSegment) (k : Nat),
    String.join (subs.mapIdx (fun i sub => srtBlockSpec (i + k + 1) sub)) =
      srtSerializeSpec (k + 1) subs := by
  intro subs
  induction subs with
  | nil => intro k; rfl
  | cons s rest ih =>
    intro k
    rw [List.mapIdx_cons, join_cons]
    simp only [srtSerializeSpec]
    congr 1
    · congr 1
      omega
    · have hfun : (fun (i : Nat) (sub : SubtitleSegment) => srtBlockSpec (i + 1 + k + 1) sub) =
          (fun (i : Nat) (sub : SubtitleSegment) => srtBlockSpec (i + (k + 1) + 1) sub) := by
        funext i sub
        congr 1
        omega
      calc String.join (rest.mapIdx fun i sub => srtBlockSpec (i + 1 + k + 1) sub)
          = String.join (rest.mapIdx fun i sub => srtBlockSpec (i + (k + 1) + 1) sub) := by
            rw [hfun]
        _ = srtSerializeSpec (k + 1 + 1) rest := ih (k + 1)

/-- `generateSRTContent` coincides with the serializer modelled from the
spec's words. -/
theorem generateSRTContent_eq_spec (subs : List SubtitleSegment) :
    generateSRTContent subs = srtSerializeSpec 1 subs := by
  have h := srtSerialize_eq subs 0
  have hfun : (fun (i : Nat) (sub : SubtitleSegment) => srtBlockSpec (i + 0 + 1) sub) =
      (fun (i : Nat) (sub : SubtitleSegment) =>
        Nat.repr (i + 1) ++ "\n" ++ sub.startTime ++ " --> " ++ sub.endTime
          ++ "\n" ++ sub.text ++ "\n\n") := by
    funext i sub
    simp [srtBlockSpec]
  rw [hfun] at h
  exact h

/-- C3: for the segment at zero-based index `i`, `generateSRTContent`
emits exactly the block `<i+1>\n<startTime> --> <endTime>\n<text>\n\n`
(renumbering from 1 in current order, one space around the arrow, a
blank line after the text, `originalText` never written), blocks
concatenated in track order with no additional separator; serializing
`[{00:00:01,500-00:00:04,200, "Hi"}]` yields exactly
`"1\n00:00:01,500 --> 00:00:04,200\nHi\n\n"`. -/
theorem generateSRTContent_format :
    (∀ subs : List SubtitleSegment, generateSRTContent subs = srtSerializeSpec 1 subs) ∧
    generateSRTContent [⟨"00:00:01,500", "00:00:04,200", "Hi", "Hi"⟩] =
      "1\n00:00:01,500 --> 00:00:04,200\nHi\n\n" := by
  constructor
  · exact generateSRTContent_eq_spec
  · decide

/-!
## Claim C4: well-formed timestamp parsing
-/

theorem parseSRTTimeL_digits (H M S MS : List Char)
    (hH : H ≠ []) (hM : M ≠ []) (hS : S ≠ []) (hMS : MS ≠ [])
    (hdH : ∀ c ∈ H, c.isDigit = true) (hdM : ∀ c ∈ M, c.isDigit = true)
    (hdS : ∀ c ∈ S, c.isDigit = true) (hdMS : ∀ c ∈ MS, c.isDigit = true) :
    parseSRTTimeL (H ++ ':' :: (M ++ ':' :: (S ++ ',' :: MS))) =
      some ((digitsToNat H : ℚ) * 3600 + (digitsToNat M : ℚ) * 60 + (digitsToNat S : ℚ)
        + (digitsToNat MS : ℚ) / 1000) := by
  have hHn : ':' ∉ H := fun hm => absurd (hdH _ hm) (by decide)
  have hMn : ':' ∉ M := fun hm => absurd (hdM _ hm) (by decide)
  have hSMn : ':' ∉ S ++ ',' :: MS := by
    intro hm
    rcases List.mem_append.mp hm with h1 | h2
    · exact absurd (hdS _ h1) (by decide)
    · rcases List.mem_cons.mp h2 with h3 | h4
      · exact absurd h3 (by decide)
      · exact absurd (hdMS _ h4) (by decide)
  have hScomma : ',' ∉ S := fun hm => absurd (hdS _ hm) (by decide)
  have hMScomma : ',' ∉ MS := fun hm => absurd (hdMS _ hm) (by decide)
  have hparts : splitOnC ':' (H ++ ':' :: (M ++ ':' :: (S ++ ',' :: MS))) =
      [H, M, S ++ ',' :: MS] := by
    rw [splitOnC_append _ hHn, splitOnC_append _ hMn, splitOnC_not_mem hSMn]
  have hsec : splitOnC ',' (S ++ ',' :: MS) = [S, MS] := by
    rw [splitOnC_append _ hScomma, splitOnC_not_mem hMScomma]
  have hne2 : H ++ ':' :: (M ++ ':' :: (S ++ ',' :: MS)) ≠ [] := by
    cases H with
    | nil => exact absurd rfl hH
    | cons c cs => simp
  simp only [parseSRTTimeL, if_neg hne2, hparts, List.length_cons, List.length_nil]
  rw [if_neg (by norm_num)]
  simp only [List.getD_cons_zero, List.getD_cons_succ, hsec, if_neg hMS,
    jsParseInt_digits hH hdH, jsParseInt_digits hM hdM, jsParseInt_digits hS hdS,
    jsParseInt_digits hMS hdMS]
  push_cast
  ring_nf

theorem parseSRTTimeL_digits_noms (H M S : List Char)
    (hH : H ≠ []) (hM : M ≠ []) (hS : S ≠ [])
    (hdH : ∀ c ∈ H, c.isDigit = true) (hdM : ∀ c ∈ M, c.isDigit = true)
    (hdS : ∀ c ∈ S, c.isDigit = true) :
    parseSRTTimeL (H ++ ':' :: (M ++ ':' :: S)) =
      some ((digitsToNat H : ℚ) * 3600 + (digitsToNat M : ℚ) * 60 + (digitsToNat S : ℚ)) := by
  have hHn : ':' ∉ H := fun hm => absurd (hdH _ hm) (by decide)
  have hMn : ':' ∉ M := fun hm => absurd (hdM _ hm) (by decide)
  have hSn : ':' ∉ S := fun hm => absurd (hdS _ hm) (by decide)
  have hScomma : ',' ∉ S := fun hm => absurd (hdS _ hm) (by decide)
  have hparts : splitOnC ':' (H ++ ':' :: (M ++ ':' :: S)) = [H, M, S] := by
    rw [splitOnC_append _ hHn, splitOnC_append _ hMn, splitOnC_not_mem hSn]
  have hsec : splitOnC ',' S = [S] := splitOnC_not_mem hScomma
  have hne2 : H ++ ':' :: (M ++ ':' :: S) ≠ [] := by
    cases H with
    | nil => exact absurd rfl hH
    | cons c cs => simp
  simp only [parseSRTTimeL, if_neg hne2, hparts, List.length_cons, List.length_nil]
  rw [if_neg (by norm_num)]
  simp only [List.getD_cons_zero, List.getD_cons_succ, hsec, List.getD_nil,
    jsParseInt_digits hH hdH, jsParseInt_digits hM hdM, jsParseInt_digits hS hdS]
  simp only [if_true]
  rw [jsParseInt_digits (by simp) (by intro c hc; simp at hc; subst hc; decide)]
  push_cast
  have h0 : digitsToNat ['0'] = 0 := by decide
  rw [h0]
  push_cast
  ring_nf

/-- C4: on every timestamp whose colon- and comma-separated fields are
nonempty decimal digit strings (hours of any width, no range
validation), `parseSRTTime` returns
`hours*3600 + minutes*60 + seconds + milliseconds/1000` seconds, the
milliseconds part defaulting to 0 when absent; in particular
`parseSRTTime "00:01:02,500" = 62.5`. -/
theorem parseSRTTime_wellformed :
    (∀ H M S MS : List Char, H ≠ [] → M ≠ [] → S ≠ [] → MS ≠ [] →
      (∀ c ∈ H, c.isDigit = true) → (∀ c ∈ M, c.isDigit = true) →
      (∀ c ∈ S, c.isDigit = true) → (∀ c ∈ MS, c.isDigit = true) →
      parseSRTTimeL (H ++ ':' :: (M ++ ':' :: (S ++ ',' :: MS))) =
        some ((digitsToNat H : ℚ) * 3600 + (digitsToNat M : ℚ) * 60 + (digitsToNat S : ℚ)
          + (digitsToNat MS : ℚ) / 1000)) ∧
    (∀ H M S : List Char, H ≠ [] → M ≠ [] → S ≠ [] →
      (∀ c ∈ H, c.isDigit = true) → (∀ c ∈ M, c.isDigit = true) →
      (∀ c ∈ S, c.isDigit = true) →
      parseSRTTimeL (H ++ ':' :: (M ++ ':' :: S)) =
        some ((digitsToNat H : ℚ) * 3600 + (digitsToNat M : ℚ) * 60 + (digitsToNat S : ℚ))) ∧
    parseSRTTime ("00:01:02,500") = some (125 / 2) := by
  refine ⟨fun H M S MS h1 h2 h3 h4 h5 h6 h7 h8 =>
      parseSRTTimeL_digits H M S MS h1 h2 h3 h4 h5 h6 h7 h8,
    fun H M S h1 h2 h3 h4 h5 h6 => parseSRTTimeL_digits_noms H M S h1 h2 h3 h4 h5 h6, ?_⟩
  have h := parseSRTTimeL_digits ['0', '0'] ['0', '1'] ['0', '2'] ['5', '0', '0']
    (by decide) (by decide) (by decide) (by decide)
    (by decide) (by decide) (by decide) (by decide)
  rw [show digitsToNat ['0', '0'] = 0 from by decide,
    show digitsToNat ['0', '1'] = 1 from by decide,
    show digitsToNat ['0', '2'] = 2 from by decide,
    show digitsToNat ['5', '0', '0'] = 500 from by decide] at h
  have heq : parseSRTTime ("00:01:02,500") =
      parseSRTTimeL (['0', '0'] ++ ':' :: (['0', '1'] ++ ':' :: (['0', '2'] ++ ',' :: ['5', '0', '0']))) := rfl
  rw [heq, h]
  norm_num

/-- Witness for C4: the general statements applied to the fields of
`"00:01:02,500"` and `"0:0:7"`. -/
theorem parseSRTTime_wellformed_witness :
    parseSRTTimeL (['0', '0'] ++ ':' :: (['0', '1'] ++ ':' :: (['0', '2'] ++ ',' :: ['5', '0', '0']))) =
      some ((digitsToNat ['0', '0'] : ℚ) * 3600 + (digitsToNat ['0', '1'] : ℚ) * 60
        + (digitsToNat ['0', '2'] : ℚ) + (digitsToNat ['5', '0', '0'] : ℚ) / 1000) ∧
    parseSRTTimeL (['0'] ++ ':' :: (['0'] ++ ':' :: ['7'])) =
      some ((digitsToNat ['0'] : ℚ) * 3600 + (digitsToNat ['0'] : ℚ) * 60
        + (digitsToNat ['7'] : ℚ)) :=
  ⟨parseSRTTime_wellformed.1 ['0', '0'] ['0', '1'] ['0', '2'] ['5', '0', '0']
      (by decide) (by decide) (by decide) (by decide)
      (by decide) (by decide) (by decide) (by decide),
    parseSRTTime_wellformed.2.1 ['0'] ['0'] ['7'] (by decide) (by decide) (by decide)
      (by decide) (by decide) (by decide)⟩

/-- Seconds-only timestamps `00:00:d₁d₂,000`, used to evaluate the
example tracks. -/
theorem parseSRTTime_sec (d1 d2 : Char) (hd1 : d1.isDigit = true) (hd2 : d2.isDigit = true) :
    parseSRTTimeL (['0', '0'] ++ ':' :: (['0', '0'] ++ ':' :: ([d1, d2] ++ ',' :: ['0', '0', '0']))) =
      some (digitsToNat [d1, d2] : ℚ) := by
  rw [parseSRTTimeL_digits ['0', '0'] ['0', '0'] [d1, d2] ['0', '0', '0']
    (by decide) (by decide) (by simp) (by decide) (by decide) (by decide)
    (by intro c hc; rcases List.mem_cons.mp hc with h | h
        · exact h ▸ hd1
        · simp only [List.mem_singleton] at h; exact h ▸ hd2)
    (by decide)]
  rw [show digitsToNat ['0', '0'] = 0 from by decide,
    show digitsToNat ['0', '0', '0'] = 0 from by decide]
  norm_num

theorem parse_val_1 : parseSRTTime ("00:00:01,000") = some 1 := by
  have h := parseSRTTime_sec '0' '1' (by decide) (by decide)
  rw [show digitsToNat ['0', '1'] = 1 from by decide] at h
  exact h

theorem parse_val_2 : parseSRTTime ("00:00:02,000") = some 2 := by
  have h := parseSRTTime_sec '0' '2' (by decide) (by decide)
  rw [show digitsToNat ['0', '2'] = 2 from by decide] at h
  exact h

theorem parse_val_3 : parseSRTTime ("00:00:03,000") = some 3 := by
  have h := parseSRTTime_sec '0' '3' (by decide) (by decide)
  rw [show digitsToNat ['0', '3'] = 3 from by decide] at h
  exact h

theorem parse_val_4 : parseSRTTime ("00:00:04,000") = some 4 := by
  have h := parseSRTTime_sec '0' '4' (by decide) (by decide)
  rw [show digitsToNat ['0', '4'] = 4 from by decide] at h
  exact h

theorem parse_val_6 : parseSRTTime ("00:00:06,000") = some 6 := by
  have h := parseSRTTime_sec '0' '6' (by decide) (by decide)
  rw [show digitsToNat ['0', '6'] = 6 from by decide] at h
  exact h

theorem segMatches_iff {t : ℚ} {s : SubtitleSegment} :
    segMatches t s = true ↔ SegActive t s := by
  unfold segMatches SegActive jsLe
  cases hs : parseSRTTime s.startTime with
  | none => simp
  | some a =>
    cases he : parseSRTTime s.endTime with
    | none => simp
    | some b => simp

theorem segMatches_eval {s : SubtitleSegment} {a b : ℚ} (t : ℚ)
    (ha : parseSRTTime s.startTime = some a) (hb : parseSRTTime s.endTime = some b) :
    segMatches t s = (decide (a ≤ t) && decide (t ≤ b)) := by
  unfold segMatches jsLe
  rw [ha, hb]

theorem findActive_eq_of_first {subs : List SubtitleSegment} {t : ℚ}
    (i : Fin subs.length) (hact : SegActive t (subs.get i))
    (hmin : ∀ j : Fin subs.length, (j : ℕ) < (i : ℕ) → ¬ SegActive t (subs.get j)) :
    findActive subs t = some (subs.get i) := by
  unfold findActive
  rw [List.find?_eq_some_iff_getElem]
  refine ⟨segMatches_iff.mpr hact, i, i.isLt, rfl, ?_⟩
  intro j hj
  have hnact := hmin ⟨j, lt_trans hj i.isLt⟩ hj
  have hfalse : segMatches t (subs.get ⟨j, lt_trans hj i.isLt⟩) = false := by
    cases hb : segMatches t (subs.get ⟨j, lt_trans hj i.isLt⟩) with
    | false => rfl
    | true => exact absurd (segMatches_iff.mp hb) hnact
  simp only [List.get_eq_getElem] at hfalse
  simp [hfalse]

theorem exTrack_seg0_start : parseSRTTime (exTrack.get ⟨0, by decide⟩).startTime = some 1 :=
  parse_val_1

theorem exTrack_seg0_end : parseSRTTime (exTrack.get ⟨0, by decide⟩).endTime = some 3 :=
  parse_val_3

/-- C1: the displayed text is the text of the first segment in track
order whose parsed time range (inclusive bounds, timestamps converted
with `parseSRTTime`) contains the playback time, and blank when no
segment matches or the track is empty or absent; on the example track it
is "A" at t=2, blank at t=3.5, "B" at t=5 and blank at t=0. -/
theorem currentSubtitle_first_match :
    (∀ (subs : List SubtitleSegment) (t : ℚ),
      ((∀ i : Fin subs.length, ¬ SegActive t (subs.get i)) →
        currentSubtitleAt subs t = "") ∧
      (∀ i : Fin subs.length, SegActive t (subs.get i) →
        (∀ j : Fin subs.length, (j : ℕ) < (i : ℕ) → ¬ SegActive t (subs.get j)) →
        currentSubtitleAt subs t = (subs.get i).text)) ∧
    (∀ t : ℚ, displayedSubtitle none t = "") ∧
    (∀ t : ℚ, currentSubtitleAt [] t = "") ∧
    currentSubtitleAt exTrack 2 = "A" ∧
    currentSubtitleAt exTrack (7 / 2) = "" ∧
    currentSubtitleAt exTrack 5 = "B" ∧
    currentSubtitleAt exTrack 0 = "" := by
  have hchar : ∀ (subs : List SubtitleSegment) (t : ℚ),
      ((∀ i : Fin subs.length, ¬ SegActive t (subs.get i)) →
        currentSubtitleAt subs t = "") ∧
      (∀ i : Fin subs.length, SegActive t (subs.get i) →
        (∀ j : Fin subs.length, (j : ℕ) < (i : ℕ) → ¬ SegActive t (subs.get j)) →
        currentSubtitleAt subs t = (subs.get i).text) := by
    intro subs t
    constructor
    · intro hnone
      have hfind : findActive subs t = none := by
        unfold findActive
        rw [List.find?_eq_none]
        intro x hx
        obtain ⟨i, hi⟩ := List.get_of_mem hx
        intro hp
        exact hnone i (hi ▸ segMatches_iff.mp hp)
      unfold currentSubtitleAt
      rw [hfind]
    · intro i hact hmin
      unfold currentSubtitleAt
      rw [findActive_eq_of_first i hact hmin]
  have hm0 : ∀ t : ℚ, segMatches t (⟨"00:00:01,000", "00:00:03,000", "A", "A"⟩ : SubtitleSegment) =
      (decide ((1 : ℚ) ≤ t) && decide (t ≤ (3 : ℚ))) :=
    fun t => segMatches_eval t parse_val_1 parse_val_3
  have hm1 : ∀ t : ℚ, segMatches t (⟨"00:00:04,000", "00:00:06,000", "B", "B"⟩ : SubtitleSegment) =
      (decide ((4 : ℚ) ≤ t) && decide (t ≤ (6 : ℚ))) :=
    fun t => segMatches_eval t parse_val_4 parse_val_6
  refine ⟨hchar, fun t => rfl, fun t => rfl, ?_, ?_, ?_, ?_⟩
  · show (match List.find? (segMatches 2) exTrack with
      | some s => s.text
      | none => "") = "A"
    rw [show List.find? (segMatches 2) exTrack =
        some ⟨"00:00:01,000", "00:00:03,000", "A", "A"⟩ from by
      apply List.find?_cons_of_pos
      rw [hm0 2]
      norm_num]
  · show (match List.find? (segMatches (7 / 2)) exTrack with
      | some s => s.text
      | none => "") = ""
    rw [show List.find? (segMatches (7 / 2)) exTrack = none from by
      unfold exTrack
      rw [List.find?_cons_of_neg, List.find?_cons_of_neg]
      · rfl
      · rw [hm1 (7 / 2)]
        norm_num
      · rw [hm0 (7 / 2)]
        norm_num]
  · show (match List.find? (segMatches 5) exTrack with
      | some s => s.text
      | none => "") = "B"
    rw [show List.find? (segMatches 5) exTrack =
        some ⟨"00:00:04,000", "00:00:06,000", "B", "B"⟩ from by
      unfold exTrack
      rw [List.find?_cons_of_neg, List.find?_cons_of_pos]
      · rw [hm1 5]
        norm_num
      · rw [hm0 5]
        norm_num]
  · show (match List.find? (segMatches 0) exTrack with
      | some s => s.text
      | none => "") = ""
    rw [show List.find? (segMatches 0) exTrack = none from by
      unfold exTrack
      rw [List.find?_cons_of_neg, List.find?_cons_of_neg]
      · rfl
      · rw [hm1 0]
        norm_num
      · rw [hm0 0]
        norm_num]

/-- Witness for C1: the first-match characterization applied to the
example track at t = 5, whose active segment is index 1. -/
theorem currentSubtitle_first_match_witness :
    currentSubtitleAt exTrack 5 = (exTrack.get ⟨1, by decide⟩).text :=
  (currentSubtitle_first_match.1 exTrack 5).2 ⟨1, by decide⟩
    ⟨4, 6, parse_val_4, parse_val_6, by norm_num, by norm_num⟩
    (fun j hj => by
      have hj0 : j = (⟨0, by decide⟩ : Fin exTrack.length) := by
        apply Fin.ext
        simpa using Nat.lt_one_iff.mp hj
      subst hj0
      rintro ⟨a, b, ha, hb, hat, htb⟩
      have hb3 : some b = some (3 : ℚ) := hb.symm.trans exTrack_seg0_end
      have hb3' : b = 3 := Option.some_inj.mp hb3
      rw [hb3'] at htb
      norm_num at htb)

/-!
## Claim C5: malformed timestamps
-/

/-- Counterexample to C5 as stated: `"a:b:c"` is garbage input (three
colon-separated parts, no digits), and `parseSRTTime` returns `NaN`
(`none`), not 0. -/
theorem parseSRTTime_garbage_nan :
    parseSRTTime ("a:b:c") = none ∧ parseSRTTime ("a:b:c") ≠ some 0 := by
  have h : parseSRTTime ("a:b:c") = none := by decide
  exact ⟨h, by rw [h]; intro hc; cases hc⟩

/-- C5 (amended): `parseSRTTime` is total (never throws) and returns 0
for the empty string and for every input with fewer than 3
colon-separated parts; garbage with at least 3 colon parts can instead
yield `NaN`. -/
theorem parseSRTTime_malformed_zero :
    parseSRTTimeL [] = some 0 ∧
    (∀ s : List Char, (splitOnC ':' s).length < 3 → parseSRTTimeL s = some 0) ∧
    parseSRTTime ("") = some 0 ∧ parseSRTTime ("bad") = some 0 := by
  refine ⟨rfl, ?_, rfl, by decide⟩
  intro s h
  simp only [parseSRTTimeL]
  by_cases hs : s = []
  · rw [if_pos hs]
  · rw [if_neg hs, if_pos h]

/-- Witness for C5 (amended): the fewer-than-3-parts case applied to
`"bad"`. -/
theorem parseSRTTime_malformed_zero_witness :
    parseSRTTimeL ("bad").data = some 0 :=
  parseSRTTime_malformed_zero.2.1 ("bad").data (by decide)

/-!
## Claim C10: the timing-line check is a substring match
-/

/-- C10: the timing-line pattern is searched for as a substring, not
matched against the whole line: surrounding junk text is accepted and
the first embedded timestamp pair is used, and of an over-long hours
field such as `100` only a two-digit suffix is taken. -/
theorem parseSRTFile_substring_match :
    parseSRTFile ("1\njunk 00:00:01,000 --> 00:00:02,000 junk\nhello") =
      [⟨"00:00:01,000", "00:00:02,000", "hello", "hello"⟩] ∧
    parseSRTFile ("1\n100:00:00,000 --> 00:00:02,000\nhi") =
      [⟨"00:00:00,000", "00:00:02,000", "hi", "hi"⟩] := by
  constructor
  · decide
  · decide

/-!
## Claim C6: lenient parsing
-/

/-- C6: `parseSRTFile` is total; a block with fewer than 3 lines, or
whose second line has no timing match, contributes no segment and no
error; surviving segments keep their relative order (the output is the
in-order `filterMap` of the per-block parser); a document whose middle
block has a broken timing line parses to exactly the two valid
segments, and an input with no valid block parses to the empty track. -/
theorem parseSRTFile_lenient :
    (∀ input : String, parseSRTFile input = (blocksOf input.data).filterMap parseBlock) ∧
    (∀ b : List Char, (splitOnC '\n' (trimL b)).length < 3 → parseBlock b = none) ∧
    (∀ b : List Char, searchTiming ((splitOnC '\n' (trimL b)).getD 1 []) = none →
      parseBlock b = none) ∧
    parseSRTFile ("1\n00:00:01,000 --> 00:00:02,000\nA\n\n2\nnot a timestamp\nB\n\n3\n00:00:05,000 --> 00:00:06,000\nC") =
      [⟨"00:00:01,000", "00:00:02,000", "A", "A"⟩,
       ⟨"00:00:05,000", "00:00:06,000", "C", "C"⟩] ∧
    parseSRTFile ("hello") = [] := by
  refine ⟨fun input => rfl, ?_, ?_, by decide, by decide⟩
  · intro b h
    simp only [parseBlock]
    rw [if_pos h]
  · intro b h
    simp only [parseBlock]
    by_cases hlen : (splitOnC '\n' (trimL b)).length < 3
    · rw [if_pos hlen]
    · rw [if_neg hlen, h]

/-- Witness for C6: a one-line block and a block with a broken timing
line are both skipped. -/
theorem parseSRTFile_lenient_witness :
    parseBlock ("x").data = none ∧ parseBlock ("2\nnot a timestamp\nB").data = none :=
  ⟨parseSRTFile_lenient.2.1 ("x").data (by decide),
   parseSRTFile_lenient.2.2.1 ("2\nnot a timestamp\nB").data (by decide)⟩

/-!
## Claim C9: shape invariant of the parser's output
-/

theorem matchTimingAt_shape {l s e : List Char} (h : matchTimingAt l = some (s, e)) :
    TsShapeP s ∧ TsShapeP e := by
  unfold matchTimingAt at h
  split at h
  · cases h
  · rename_i s1 r1 heq1
    split at h
    · rename_i r3 heq3
      split at h
      · rename_i e1 r4 heq4
        injection h with h1
        injection h1 with hs he
        subst hs; subst he
        exact ⟨(matchTsAt_shape heq1).1, (matchTsAt_shape heq4).1⟩
      · cases h
    · cases h

theorem searchTiming_shape : ∀ {l s e : List Char}, searchTiming l = some (s, e) →
    TsShapeP s ∧ TsShapeP e := by
  intro l
  induction l with
  | nil => intro s e h; cases h
  | cons c cs ih =>
    intro s e h
    simp only [searchTiming] at h
    split at h
    · rename_i r heq
      cases h
      exact matchTimingAt_shape heq
    · exact ih h

/-- C9: every segment `parseSRTFile` emits has `originalText` equal to
`text`, start and end timestamps of the exact shape
`\d{2}:\d{2}:\d{2},\d{3}`, and text free of leading and trailing
whitespace. -/
theorem parseSRTFile_output_invariant :
    ∀ (input : String) (s : SubtitleSegment), s ∈ parseSRTFile input →
      s.originalText = s.text ∧ TsShapeP s.startTime.data ∧ TsShapeP s.endTime.data ∧
      trimL s.text.data = s.text.data := by
  intro input s hmem
  unfold parseSRTFile at hmem
  obtain ⟨b, _, hpb⟩ := List.mem_filterMap.mp hmem
  simp only [parseBlock] at hpb
  split at hpb
  · cases hpb
  · cases heq : searchTiming ((splitOnC '\n' (trimL b)).getD 1 []) with
    | none =>
      simp only [heq] at hpb
      cases hpb
    | some pr =>
      obtain ⟨ts, te⟩ := pr
      simp only [heq] at hpb
      have hshape := searchTiming_shape heq
      injection hpb with hs
      subst hs
      exact ⟨rfl, hshape.1, hshape.2, trimL_idem _⟩

/-- Witness for C9: the invariant evaluated on a concrete parsed
segment. -/
theorem parseSRTFile_output_invariant_witness :
    (⟨"00:00:01,000", "00:00:02,000", "A", "A"⟩ : SubtitleSegment).originalText =
        (⟨"00:00:01,000", "00:00:02,000", "A", "A"⟩ : SubtitleSegment).text ∧
      TsShapeP ("00:00:01,000").data ∧ TsShapeP ("00:00:02,000").data ∧
      trimL ("A").data = ("A").data :=
  parseSRTFile_output_invariant ("1\n00:00:01,000 --> 00:00:02,000\nA")
    ⟨"00:00:01,000", "00:00:02,000", "A", "A"⟩ (by decide)

/-!
## Claim C8: seeking and lookup use the same parser and agree
-/

/-- C8: `seekTo`'s conversion is the identical timestamp parser used by
the lookup, and on any track satisfying the §3 invariant (each segment's
parsed start is at most its parsed end, and segments occupy pairwise
disjoint closed time ranges), seeking to a segment's start time lands on
an instant where the lookup displays exactly that segment's text. -/
theorem seek_lands_on_segment :
    (∀ timestamp : String, seekTarget timestamp = parseSRTTime timestamp) ∧
    (∀ subs : List SubtitleSegment,
      (∀ s ∈ subs, ∃ a b, parseSRTTime s.startTime = some a ∧
        parseSRTTime s.endTime = some b ∧ a ≤ b) →
      List.Pairwise (fun s1 s2 => ∀ t : ℚ, ¬ (SegActive t s1 ∧ SegActive t s2)) subs →
      ∀ i : Fin subs.length, ∃ t, seekTarget (subs.get i).startTime = some t ∧
        currentSubtitleAt subs t = (subs.get i).text) := by
  constructor
  · intro ts
    rfl
  · intro subs hinv hdisj i
    obtain ⟨a, b, ha, hb, hab⟩ := hinv (subs.get i) (List.get_mem subs i.val i.isLt)
    refine ⟨a, ha, ?_⟩
    have hact : SegActive a (subs.get i) := ⟨a, b, ha, hb, le_refl a, hab⟩
    have hmin : ∀ j : Fin subs.length, (j : ℕ) < (i : ℕ) → ¬ SegActive a (subs.get j) := by
      intro j hj hSj
      have hR := List.pairwise_iff_get.mp hdisj j i hj
      exact hR a ⟨hSj, hact⟩
    unfold currentSubtitleAt
    rw [findActive_eq_of_first i hact hmin]

/-- Witness for C8: on the example track, seeking to segment 1's start
time (4 seconds) makes the lookup display "B". -/
theorem seek_lands_on_segment_witness :
    ∃ t, seekTarget ((exTrack.get ⟨1, by decide⟩).startTime) = some t ∧
      currentSubtitleAt exTrack t = (exTrack.get ⟨1, by decide⟩).text :=
  seek_lands_on_segment.2 exTrack
    (by
      intro s hs
      rcases List.mem_cons.mp hs with h | h
      · exact h ▸ ⟨1, 3, parse_val_1, parse_val_3, by norm_num⟩
      · rcases List.mem_cons.mp h with h2 | h2
        · exact h2 ▸ ⟨4, 6, parse_val_4, parse_val_6, by norm_num⟩
        · exact absurd h2 (List.not_mem_nil s))
    (by
      constructor
      · intro s2 hs2 t hboth
        obtain ⟨hA, hB⟩ := hboth
        rcases List.mem_cons.mp hs2 with h | h
        · subst h
          obtain ⟨a, b, ha, hb, hat, htb⟩ := hA
          obtain ⟨a2, b2, ha2, hb2, hat2, htb2⟩ := hB
          have hb3 : b = 3 := Option.some_inj.mp (hb.symm.trans parse_val_3)
          have ha4 : a2 = 4 := Option.some_inj.mp (ha2.symm.trans parse_val_4)
          rw [hb3] at htb
          rw [ha4] at hat2
          linarith
        · exact absurd h (List.not_mem_nil s2)
      · constructor
        · intro s2 hs2
          exact absurd hs2 (List.not_mem_nil s2)
        · constructor)
    ⟨1, by decide⟩

theorem head?_append_left {a : List Char} (b : List Char) (h : a ≠ []) :
    (a ++ b).head? = a.head? := by
  cases a with
  | nil => exact absurd rfl h
  | cons c cs => rfl

theorem getLast?_append_right (a : List Char) {b : List Char} (h : b ≠ []) :
    (a ++ b).getLast? = b.getLast? := by
  rw [← List.head?_reverse, ← List.head?_reverse, List.reverse_append]
  exact head?_append_left a.reverse (by simpa using h)

/-- The two-block document with `k+1` newlines (k blank lines) between
the blocks splits into exactly the two blocks. -/
theorem blocksOf_two_blocks (B1 B2 : List Char) (k : Nat) (h1 : WFBlock B1)
    (h2 : WFBlock B2) :
    blocksOf (B1 ++ '\n' :: (List.replicate (k + 1) '\n' ++ B2)) = [B1, B2] := by
  obtain ⟨⟨ls1, hls1, hne1, hgood1⟩, hBne1, hhead1, hlast1, _⟩ := h1
  obtain ⟨⟨ls2, hls2, hne2, hgood2⟩, hBne2, hhead2, hlast2, _⟩ := h2
  obtain ⟨c0, hc0⟩ : ∃ c, B2.head? = some c := by
    cases B2 with
    | nil => exact absurd rfl hBne2
    | cons c cs => exact ⟨c, rfl⟩
  have hc0w := hhead2 c0 hc0
  have hdoctrim : trimL (B1 ++ '\n' :: (List.replicate (k + 1) '\n' ++ B2)) =
      B1 ++ '\n' :: (List.replicate (k + 1) '\n' ++ B2) := by
    apply trimL_eq_self
    · intro c hc
      rw [head?_append_left _ hBne1] at hc
      exact hhead1 c hc
    · intro c hc
      have hstep1 : (B1 ++ '\n' :: (List.replicate (k + 1) '\n' ++ B2)).getLast? =
          ('\n' :: (List.replicate (k + 1) '\n' ++ B2)).getLast? :=
        getLast?_append_right B1 (by simp)
      have hstep2 : ('\n' :: (List.replicate (k + 1) '\n' ++ B2)).getLast? = B2.getLast? := by
        have hsplit : '\n' :: (List.replicate (k + 1) '\n' ++ B2) =
            ('\n' :: List.replicate (k + 1) '\n') ++ B2 := by simp
        rw [hsplit]
        exact getLast?_append_right _ hBne2
      rw [hstep1, hstep2] at hc
      exact hlast2 c hc
  unfold blocksOf
  rw [hdoctrim]
  rw [hls1]
  rw [splitReAux_chunk ls1 [] ('\n' :: (List.replicate (k + 1) '\n' ++ B2)) _ hne1
    hgood1 (le_refl _)]
  rw [splitReAux_congr _ (('\n' :: (List.replicate (k + 1) '\n' ++ B2)).length)
    _ _ (by simp [List.length_append]) (le_refl _)]
  rw [show ('\n' :: (List.replicate (k + 1) '\n' ++ B2)).length =
    (List.replicate (k + 1) '\n' ++ B2).length + 1 from by simp]
  rw [splitReAux_sep_step k _ _ B2 c0 hc0 hc0w]
  simp only [List.append_nil, List.reverse_reverse]
  congr 1
  rw [hls2]
  conv_lhs =>
    rw [show joinSep '\n' ls2 = joinSep '\n' ls2 ++ [] from (List.append_nil _).symm]
  rw [splitReAux_chunk ls2 [] [] _ hne2 hgood2
    (by simp only [List.length_append, List.append_nil]; omega)]
  simp [splitReAux]

theorem head_cond_of {B : List Char} {d : Char} (hB : B.head? = some d)
    (hd : isWS d = false) : ∀ c, B.head? = some c → isWS c = false := by
  intro c hc
  rw [hB] at hc
  injection hc with h
  exact h ▸ hd

theorem getLast_cond_of {B : List Char} {d : Char} (hB : B.getLast? = some d)
    (hd : isWS d = false) : ∀ c, B.getLast? = some c → isWS c = false := by
  intro c hc
  rw [hB] at hc
  injection hc with h
  exact h ▸ hd

/-- C7: for well-formed blocks, the document with three blank lines
between them parses exactly like the one with a single blank line (the
splitter consumes the whole blank-line run), giving the same 2-segment
track; and trailing whitespace (trailing blank lines included) never
changes a parse result. -/
theorem parseSRTFile_blankrun_tolerance :
    (∀ B1 B2 : List Char, WFBlock B1 → WFBlock B2 →
      parseSRTFileL (B1 ++ '\n' :: '\n' :: '\n' :: '\n' :: B2) =
        parseSRTFileL (B1 ++ '\n' :: '\n' :: B2) ∧
      (parseSRTFileL (B1 ++ '\n' :: '\n' :: B2)).length = 2) ∧
    (∀ l ws : List Char, (∀ c ∈ ws, isWS c) → parseSRTFileL (l ++ ws) = parseSRTFileL l) ∧
    (∀ s : String, parseSRTFile s = parseSRTFileL s.data) := by
  refine ⟨?_, ?_, fun s => rfl⟩
  · intro B1 B2 h1 h2
    have hb1 := blocksOf_two_blocks B1 B2 0 h1 h2
    have hb3 := blocksOf_two_blocks B1 B2 2 h1 h2
    simp only [List.replicate_succ, List.replicate_zero, List.nil_append,
      List.cons_append] at hb1 hb3
    obtain ⟨s1, hs1⟩ := Option.isSome_iff_exists.mp h1.2.2.2.2
    obtain ⟨s2, hs2⟩ := Option.isSome_iff_exists.mp h2.2.2.2.2
    unfold parseSRTFileL
    rw [hb1, hb3]
    simp [List.filterMap_cons, hs1, hs2]
  · intro l ws hws
    unfold parseSRTFileL blocksOf
    rw [trimL_append_ws l hws]

/-- Witness for C7: two concrete well-formed blocks joined by three
blank lines parse exactly like the single-blank-line document, to 2
segments. -/
theorem parseSRTFile_blankrun_tolerance_witness :
    parseSRTFileL (("1\n00:00:01,000 --> 00:00:02,000\nA").data ++
        '\n' :: '\n' :: '\n' :: '\n' :: ("2\n00:00:03,000 --> 00:00:04,000\nB").data) =
      parseSRTFileL (("1\n00:00:01,000 --> 00:00:02,000\nA").data ++
        '\n' :: '\n' :: ("2\n00:00:03,000 --> 00:00:04,000\nB").data) ∧
    (parseSRTFileL (("1\n00:00:01,000 --> 00:00:02,000\nA").data ++
        '\n' :: '\n' :: ("2\n00:00:03,000 --> 00:00:04,000\nB").data)).length = 2 :=
  parseSRTFile_blankrun_tolerance.1
    (("1\n00:00:01,000 --> 00:00:02,000\nA").data)
    (("2\n00:00:03,000 --> 00:00:04,000\nB").data)
    ⟨⟨[['1'], ("00:00:01,000 --> 00:00:02,000").data, ['A']], by decide, by decide,
        by decide⟩,
      by decide, head_cond_of rfl (by decide), getLast_cond_of rfl (by decide), by decide⟩
    ⟨⟨[['2'], ("00:00:03,000 --> 00:00:04,000").data, ['B']], by decide, by decide,
        by decide⟩,
      by decide, head_cond_of rfl (by decide), getLast_cond_of rfl (by decide), by decide⟩

theorem tsShapeB_iff {cs : List Char} : tsShapeB cs = true ↔ TsShapeP cs := by
  constructor
  · intro h
    unfold tsShapeB at h
    split at h
    · rename_i a b c1 c d c2 e f c3 g h2 i
      simp only [Bool.and_eq_true, decide_eq_true_eq] at h
      obtain ⟨⟨⟨⟨⟨⟨⟨⟨⟨⟨⟨h1, h2'⟩, h3⟩, h4⟩, h5⟩, h6⟩, h7⟩, h8⟩, h9⟩, h10⟩, h11⟩, h12⟩ := h
      subst h3; subst h6; subst h9
      exact ⟨a, b, c, d, e, f, g, h2, i, rfl, h1, h2', h4, h5, h7, h8, h10, h11, h12⟩
    · cases h
  · rintro ⟨a, b, c, d, e, f, g, h, i, hEq, h1, h2, h3, h4, h5, h6, h7, h8, h9⟩
    subst hEq
    simp [tsShapeB, h1, h2, h3, h4, h5, h6, h7, h8, h9]

theorem tsShape_chars {cs : List Char} (h : TsShapeP cs) :
    cs ≠ [] ∧ (∀ c ∈ cs, c ≠ '\n') ∧ (∃ c ∈ cs, isWS c = false) ∧
    (∀ c, cs.head? = some c → isWS c = false) := by
  obtain ⟨a, b, c, d, e, f, g, h2, i, hEq, h1, hb, hc, hd, he, hf, hg, hh, hi⟩ := h
  subst hEq
  refine ⟨by simp, ?_, ⟨a, by simp, isDigit_not_ws h1⟩, ?_⟩
  · intro x hx
    simp only [List.mem_cons, List.not_mem_nil, or_false] at hx
    rcases hx with rfl | rfl | rfl | rfl | rfl | rfl | rfl | rfl | rfl | rfl | rfl | rfl <;>
      first
        | decide
        | exact isDigit_ne (by assumption) (by decide)
  · intro x hx
    injection hx with hx2
    exact hx2 ▸ isDigit_not_ws h1

theorem matchTimingAt_exact {S E : List Char} (hS : TsShapeP S) (hE : TsShapeP E) :
    matchTimingAt (S ++ (' ' :: '-' :: '-' :: '>' :: ' ' :: E)) = some (S, E) := by
  have h1 := matchTsAt_of_shape hS (' ' :: '-' :: '-' :: '>' :: ' ' :: E)
  have hE0 : E.dropWhile isWS = E := by
    obtain ⟨a, b, c, d, e, f, g, h, i, hEq, ha, _⟩ := hE
    subst hEq
    rw [List.dropWhile_cons, if_neg (by simp [isDigit_not_ws ha])]
  have hdrop1 : List.dropWhile isWS (' ' :: '-' :: '-' :: '>' :: ' ' :: E) =
      '-' :: '-' :: '>' :: (' ' :: E) := by
    rw [List.dropWhile_cons, if_pos (by decide), List.dropWhile_cons, if_neg (by decide)]
  have hdrop2 : List.dropWhile isWS (' ' :: E) = E := by
    rw [List.dropWhile_cons, if_pos (by decide)]
    exact hE0
  have h2 := matchTsAt_of_shape hE ([] : List Char)
  rw [List.append_nil] at h2
  unfold matchTimingAt
  simp only [h1, hdrop1, hdrop2, h2]

theorem searchTiming_exact {S E : List Char} (hS : TsShapeP S) (hE : TsShapeP E) :
    searchTiming (S ++ (' ' :: '-' :: '-' :: '>' :: ' ' :: E)) = some (S, E) := by
  have hm := matchTimingAt_exact hS hE
  obtain ⟨a, b, c, d, e, f, g, h, i, hEq, _⟩ := hS
  subst hEq
  simp only [List.cons_append, List.nil_append] at hm ⊢
  simp only [searchTiming, hm]

/-- Counterexample to C2 as stated: the track satisfies every hypothesis
of the claim (nonempty text equal to `originalText`, exact-shape
timestamps), yet parsing the serialization does not reproduce the
segments — the blank line inside the text splits the block, and the text
collapses to `"a"`. -/
theorem roundtrip_counterexample :
    (∀ s ∈ cexTrack, s.text ≠ "" ∧ s.originalText = s.text ∧
      TsShapeP s.startTime.data ∧ TsShapeP s.endTime.data) ∧
    parseSRTFile (generateSRTContent cexTrack) ≠
      cexTrack.map (fun s => { s with originalText := s.text }) := by
  constructor
  · intro s hs
    simp only [cexTrack, List.mem_singleton] at hs
    subst hs
    exact ⟨by decide, rfl, tsShapeB_iff.mp (by decide), tsShapeB_iff.mp (by decide)⟩
  · decide

theorem serialize_data : ∀ (subs : List SubtitleSegment) (n : Nat),
    (srtSerializeSpec (n + 1) subs).data = genBlocks n subs := by
  intro subs
  induction subs with
  | nil => intro n; rfl
  | cons s rest ih =>
    intro n
    have d1 : ("\n" : String).data = ['\n'] := rfl
    have d2 : (" --> " : String).data = [' ', '-', '-', '>', ' '] := rfl
    have d3 : ("\n\n" : String).data = ['\n', '\n'] := rfl
    show (srtBlockSpec (n + 1) s ++ srtSerializeSpec (n + 1 + 1) rest).data = _
    rw [String.data_append, ih (n + 1)]
    simp only [srtBlockSpec, genBlocks, blockCore, timingLine, String.data_append,
      d1, d2, d3, List.append_assoc, List.cons_append, List.nil_append]

theorem genBlocks_eq_inter : ∀ (subs : List SubtitleSegment) (n : Nat), subs ≠ [] →
    genBlocks n subs = interBlocks n subs ++ ['\n', '\n'] := by
  intro subs
  induction subs with
  | nil => intro n h; exact absurd rfl h
  | cons s rest ih =>
    intro n _
    cases rest with
    | nil => simp [genBlocks, interBlocks]
    | cons s2 rest2 =>
      show blockCore (n + 1) s ++ '\n' :: '\n' :: genBlocks (n + 1) (s2 :: rest2) = _
      rw [ih (n + 1) (by simp)]
      simp only [interBlocks, List.append_assoc, List.cons_append]

theorem blockCore_eq_join (n : Nat) (s : SubtitleSegment) :
    blockCore n s = joinSep '\n' (blockLines n s) := by
  unfold blockCore blockLines
  cases hts : splitOnC '\n' s.text.data with
  | nil => exact absurd hts (splitOnC_ne_nil '\n' s.text.data)
  | cons t ts =>
    show _ = (Nat.repr n).data ++ '\n' :: joinSep '\n' (timingLine s :: t :: ts)
    congr 1
    congr 1
    show timingLine s ++ '\n' :: s.text.data = timingLine s ++ '\n' :: joinSep '\n' (t :: ts)
    congr 2
    rw [← hts, joinSep_splitOnC]

theorem goodLine_repr (n : Nat) : GoodLine (Nat.repr n).data := by
  constructor
  · intro hm
    exact absurd (repr_data_digits n '\n' hm) (by decide)
  · cases hr : (Nat.repr n).data with
    | nil => exact absurd hr (repr_data_ne_nil n)
    | cons c cs =>
      refine ⟨c, by simp, ?_⟩
      exact isDigit_not_ws (repr_data_digits n c (by rw [hr]; simp))

theorem goodLine_timing {s : SubtitleSegment} (hS : TsShapeP s.startTime.data)
    (hE : TsShapeP s.endTime.data) : GoodLine (timingLine s) := by
  obtain ⟨_, hSnl, _, _⟩ := tsShape_chars hS
  obtain ⟨_, hEnl, _, _⟩ := tsShape_chars hE
  constructor
  · intro hm
    unfold timingLine at hm
    rcases List.mem_append.mp hm with h1 | h2
    · exact absurd rfl (hSnl '\n' h1)
    · simp only [List.mem_cons] at h2
      rcases h2 with h | h | h | h | h | hmem
      · exact absurd h (by decide)
      · exact absurd h (by decide)
      · exact absurd h (by decide)
      · exact absurd h (by decide)
      · exact absurd h (by decide)
      · exact absurd rfl (hEnl '\n' hmem)
  · refine ⟨'-', ?_, by decide⟩
    unfold timingLine
    simp

theorem goodLines_block (n : Nat) {s : SubtitleSegment} (hs : RoundTripSafe s) :
    ∀ l ∈ blockLines n s, GoodLine l := by
  obtain ⟨hne, horig, hS, hE, htrim, hlines⟩ := hs
  intro l hl
  rcases List.mem_cons.mp hl with h | h
  · exact h ▸ goodLine_repr n
  · rcases List.mem_cons.mp h with h2 | h2
    · exact h2 ▸ goodLine_timing hS hE
    · exact ⟨not_mem_of_mem_splitOnC h2, hlines l h2⟩

theorem blockCore_head (n : Nat) (s : SubtitleSegment) :
    ∃ c, (blockCore n s).head? = some c ∧ isWS c = false := by
  unfold blockCore
  cases hr : (Nat.repr n).data with
  | nil => exact absurd hr (repr_data_ne_nil n)
  | cons c cs =>
    refine ⟨c, rfl, ?_⟩
    exact isDigit_not_ws (repr_data_digits n c (by rw [hr]; simp))

theorem blockCore_ne_nil (n : Nat) (s : SubtitleSegment) : blockCore n s ≠ [] := by
  obtain ⟨c, hc, _⟩ := blockCore_head n s
  intro hb
  rw [hb] at hc
  cases hc

theorem blockCore_getLast {s : SubtitleSegment} (n : Nat) (hne : s.text.data ≠ []) :
    (blockCore n s).getLast? = s.text.data.getLast? := by
  unfold blockCore
  rw [getLast?_append_right _ (by simp)]
  rw [show ('\n' :: (timingLine s ++ '\n' :: s.text.data)) =
      ('\n' :: timingLine s) ++ ('\n' :: s.text.data) from by simp]
  rw [getLast?_append_right _ (by simp)]
  rw [show ('\n' :: s.text.data) = ['\n'] ++ s.text.data from rfl]
  rw [getLast?_append_right _ hne]

theorem interBlocks_ne_nil : ∀ (subs : List SubtitleSegment) (n : Nat), subs ≠ [] →
    interBlocks n subs ≠ [] := by
  intro subs n h
  cases subs with
  | nil => exact absurd rfl h
  | cons s rest =>
    cases rest with
    | nil => exact blockCore_ne_nil (n + 1) s
    | cons s2 rest2 =>
      show blockCore (n + 1) s ++ '\n' :: '\n' :: interBlocks (n + 1) (s2 :: rest2) ≠ []
      simp

theorem interBlocks_head : ∀ (subs : List SubtitleSegment) (n : Nat), subs ≠ [] →
    ∃ c, (interBlocks n subs).head? = some c ∧ isWS c = false := by
  intro subs n h
  cases subs with
  | nil => exact absurd rfl h
  | cons s rest =>
    cases rest with
    | nil => exact blockCore_head (n + 1) s
    | cons s2 rest2 =>
      obtain ⟨c, hc, hcw⟩ := blockCore_head (n + 1) s
      refine ⟨c, ?_, hcw⟩
      show (blockCore (n + 1) s ++ _).head? = some c
      rw [head?_append_left _ (blockCore_ne_nil (n + 1) s)]
      exact hc

theorem text_ne_nil {s : SubtitleSegment} (hne : s.text ≠ "") : s.text.data ≠ [] :=
  fun h0 => hne (String.ext (by rw [h0]))

theorem interBlocks_getLast : ∀ (subs : List SubtitleSegment) (n : Nat),
    (∀ s ∈ subs, RoundTripSafe s) → subs ≠ [] →
    ∀ c, (interBlocks n subs).getLast? = some c → isWS c = false := by
  intro subs
  induction subs with
  | nil => intro n _ h; exact absurd rfl h
  | cons s rest ih =>
    intro n hsafe _
    cases rest with
    | nil =>
      intro c hc
      obtain ⟨hne, _, _, _, htrim, _⟩ := hsafe s (by simp)
      rw [show interBlocks n [s] = blockCore (n + 1) s from rfl,
        blockCore_getLast (n + 1) (text_ne_nil hne)] at hc
      exact trimL_getLast_not (by rw [htrim]; exact hc)
    | cons s2 rest2 =>
      intro c hc
      rw [show interBlocks n (s :: s2 :: rest2) =
          blockCore (n + 1) s ++ '\n' :: '\n' :: interBlocks (n + 1) (s2 :: rest2) from rfl] at hc
      rw [getLast?_append_right _ (by simp)] at hc
      rw [show ('\n' :: '\n' :: interBlocks (n + 1) (s2 :: rest2)) =
          ['\n', '\n'] ++ interBlocks (n + 1) (s2 :: rest2) from rfl] at hc
      rw [getLast?_append_right _ (interBlocks_ne_nil _ _ (by simp))] at hc
      exact ih (n + 1) (fun x hx => hsafe x (by simp [hx])) (by simp) c hc

theorem trimL_blockCore (n : Nat) {s : SubtitleSegment} (hs : RoundTripSafe s) :
    trimL (blockCore n s) = blockCore n s := by
  obtain ⟨hne, _, _, _, htrim, _⟩ := hs
  apply trimL_eq_self
  · intro c hc
    obtain ⟨c2, hc2, hc2w⟩ := blockCore_head n s
    rw [hc2] at hc
    injection hc with h
    exact h ▸ hc2w
  · intro c hc
    rw [blockCore_getLast n (text_ne_nil hne)] at hc
    exact trimL_getLast_not (by rw [htrim]; exact hc)

theorem splitOnC_blockCore (n : Nat) {s : SubtitleSegment} (hs : RoundTripSafe s) :
    splitOnC '\n' (blockCore n s) = blockLines n s := by
  obtain ⟨_, _, hS, hE, _, _⟩ := hs
  have h1 : '\n' ∉ (Nat.repr n).data := (goodLine_repr n).1
  have h2 : '\n' ∉ timingLine s := (goodLine_timing hS hE).1
  unfold blockCore blockLines
  rw [splitOnC_append _ h1, splitOnC_append _ h2]

theorem parseBlock_blockCore (n : Nat) {s : SubtitleSegment} (hs : RoundTripSafe s) :
    parseBlock (blockCore n s) = some ⟨s.startTime, s.endTime, s.text, s.text⟩ := by
  obtain ⟨hne, horig, hS, hE, htrim, hlines⟩ := hs
  have htr := trimL_blockCore n ⟨hne, horig, hS, hE, htrim, hlines⟩
  have hsp := splitOnC_blockCore n ⟨hne, horig, hS, hE, htrim, hlines⟩
  have hlen : 0 < (splitOnC '\n' s.text.data).length := length_splitOnC_pos '\n' s.text.data
  simp only [parseBlock, htr, hsp]
  rw [if_neg (by simp only [blockLines, List.length_cons]; omega)]
  have hsearch : searchTiming ((blockLines n s).getD 1 []) =
      some (s.startTime.data, s.endTime.data) := by
    show searchTiming (timingLine s) = _
    exact searchTiming_exact hS hE
  simp only [hsearch]
  have htext : trimL (joinSep '\n' ((blockLines n s).drop 2)) = s.text.data := by
    show trimL (joinSep '\n' (splitOnC '\n' s.text.data)) = _
    rw [joinSep_splitOnC]
    exact htrim
  simp only [htext]

theorem splitReAux_blockList : ∀ (subs : List SubtitleSegment) (k fuel : Nat),
    subs ≠ [] → (∀ s ∈ subs, RoundTripSafe s) →
    (interBlocks k subs).length ≤ fuel →
    splitReAux fuel [] (interBlocks k subs) = blockList k subs := by
  intro subs
  induction subs with
  | nil => intro k fuel h; exact absurd rfl h
  | cons s rest ih =>
    intro k fuel _ hsafe hlen
    cases rest with
    | nil =>
      show splitReAux fuel [] (blockCore (k + 1) s) = [blockCore (k + 1) s]
      rw [blockCore_eq_join (k + 1) s]
      conv_lhs =>
        rw [show joinSep '\n' (blockLines (k + 1) s) =
          joinSep '\n' (blockLines (k + 1) s) ++ [] from (List.append_nil _).symm]
      rw [splitReAux_chunk (blockLines (k + 1) s) [] [] fuel (by simp [blockLines])
        (goodLines_block (k + 1) (hsafe s (by simp)))
        (by
          rw [List.append_nil, ← blockCore_eq_join]
          exact hlen)]
      simp [splitReAux]
    | cons s2 rest2 =>
      show splitReAux fuel []
        (blockCore (k + 1) s ++ '\n' :: '\n' :: interBlocks (k + 1) (s2 :: rest2)) =
        blockCore (k + 1) s :: blockList (k + 1) (s2 :: rest2)
      obtain ⟨c0, hc0, hc0w⟩ := interBlocks_head (s2 :: rest2) (k + 1) (by simp)
      have hX : ('\n' :: '\n' :: interBlocks (k + 1) (s2 :: rest2)) =
          '\n' :: (List.replicate 1 '\n' ++ interBlocks (k + 1) (s2 :: rest2)) := by
        simp [List.replicate]
      rw [hX, blockCore_eq_join (k + 1) s]
      have hlen2 : (joinSep '\n' (blockLines (k + 1) s) ++
          '\n' :: (List.replicate 1 '\n' ++ interBlocks (k + 1) (s2 :: rest2))).length ≤ fuel := by
        rw [← blockCore_eq_join, ← hX]
        exact hlen
      rw [splitReAux_chunk (blockLines (k + 1) s) []
        ('\n' :: (List.replicate 1 '\n' ++ interBlocks (k + 1) (s2 :: rest2))) fuel
        (by simp [blockLines]) (goodLines_block (k + 1) (hsafe s (by simp))) hlen2]
      rw [splitReAux_congr fuel
        (('\n' :: (List.replicate 1 '\n' ++ interBlocks (k + 1) (s2 :: rest2))).length) _ _
        (by simp only [List.length_append, List.length_cons] at hlen2 ⊢; omega) (le_refl _)]
      rw [show ('\n' :: (List.replicate 1 '\n' ++ interBlocks (k + 1) (s2 :: rest2))).length =
        (List.replicate 1 '\n' ++ interBlocks (k + 1) (s2 :: rest2)).length + 1 from by simp]
      rw [splitReAux_sep_step 0 _ _ (interBlocks (k + 1) (s2 :: rest2)) c0 hc0 hc0w]
      simp only [List.append_nil, List.reverse_reverse]
      rw [← blockCore_eq_join]
      congr 1
      exact ih (k + 1) _ (by simp) (fun x hx => hsafe x (by simp [hx]))
        (by simp only [List.length_append, List.length_replicate]; omega)

theorem filterMap_blockList : ∀ (subs : List SubtitleSegment) (k : Nat),
    (∀ s ∈ subs, RoundTripSafe s) →
    (blockList k subs).filterMap parseBlock =
      subs.map (fun s => { s with originalText := s.text }) := by
  intro subs
  induction subs with
  | nil => intro k _; rfl
  | cons s rest ih =>
    intro k hsafe
    show (blockCore (k + 1) s :: blockList (k + 1) rest).filterMap parseBlock = _
    rw [List.filterMap_cons]
    simp only [parseBlock_blockCore (k + 1) (hsafe s (by simp))]
    rw [ih (k + 1) (fun x hx => hsafe x (by simp [hx]))]
    rfl

theorem blocksOf_gen {subs : List SubtitleSegment} (hne : subs ≠ [])
    (hsafe : ∀ s ∈ subs, RoundTripSafe s) :
    blocksOf (generateSRTContent subs).data = blockList 0 subs := by
  have hgen : (generateSRTContent subs).data = genBlocks 0 subs := by
    rw [generateSRTContent_eq_spec subs]
    exact serialize_data subs 0
  unfold blocksOf
  rw [hgen, genBlocks_eq_inter subs 0 hne,
    trimL_append_ws _ (by decide : ∀ c ∈ ['\n', '\n'], isWS c)]
  rw [trimL_eq_self ?_ ?_]
  · exact splitReAux_blockList subs 0 _ hne hsafe (le_refl _)
  · intro c hc
    obtain ⟨c2, hc2, hc2w⟩ := interBlocks_head subs 0 hne
    rw [hc2] at hc
    injection hc with h
    exact h ▸ hc2w
  · intro c hc
    exact interBlocks_getLast subs 0 hsafe hne c hc

/-- C2 (amended): for every track whose segments have nonempty text
equal to `originalText`, exact-shape timestamps, and text that is free
of leading/trailing whitespace and contains no blank line, parsing the
serialization reproduces the same `(startTime, endTime, text)` triples
in order, with `originalText` re-populated equal to `text`. -/
theorem roundtrip_amended :
    ∀ subs : List SubtitleSegment, (∀ s ∈ subs, RoundTripSafe s) →
      parseSRTFile (generateSRTContent subs) =
        subs.map (fun s => { s with originalText := s.text }) := by
  intro subs hsafe
  cases hs : subs with
  | nil => decide
  | cons s rest =>
    subst hs
    unfold parseSRTFile
    rw [blocksOf_gen (by simp) hsafe]
    exact filterMap_blockList (s :: rest) 0 hsafe

/-- Witness for C2 (amended): the example track round-trips. -/
theorem roundtrip_amended_witness :
    parseSRTFile (generateSRTContent exTrack) =
      exTrack.map (fun s => { s with originalText := s.text }) :=
  roundtrip_amended exTrack (by
    intro s hs
    rcases List.mem_cons.mp hs with h | h
    · subst h
      exact ⟨by decide, rfl, tsShapeB_iff.mp (by decide), tsShapeB_iff.mp (by decide),
        by decide, by decide⟩
    · rcases List.mem_cons.mp h with h2 | h2
      · subst h2
        exact ⟨by decide, rfl, tsShapeB_iff.mp (by decide), tsShapeB_iff.mp (by decide),
          by decide, by decide⟩
      · exact absurd h2 (List.not_mem_nil s))
